import Mathlib

/-!
Verification of the two core components of the BusTub buffer-manager code
(`extendible_hash_table.cpp` and `lru_k_replacer.cpp`): a shallow embedding of
the extendible hash table and of the LRU-K replacer, together with proofs of
the specification's invariants and functional-correctness properties.

Modelling conventions:
* the C++ `std::unordered_map<frame_id_t, Frame>` is modelled as an association
  list (iteration order is the list order; the proved selection properties do
  not depend on that order);
* shared `std::shared_ptr<Bucket>` ownership is modelled as an arena: the table
  stores a list of buckets and the directory stores arena indices, so C++
  pointer equality (`dir_[i] == target_bucket`) becomes index equality;
* `size_t` arithmetic is modelled on `Nat`; `std::numeric_limits<size_t>::max()`
  is the constant `sizeTMax = 2 ^ 64 - 1`;
* frame ids are modelled as `Nat` (the spec fixes the frame-id namespace to
  unsigned integers in `[0, num_frames)`; the concrete `frame_id_t` typedef is
  not part of this repository's sources);
* the C++ `throw` of a `std::runtime_error` is modelled with `Except String`;
* the unbounded `while (true)` loop of `ExtendibleHashTable::Insert` is
  modelled with explicit fuel; termination is then the statement that some
  fuel amount suffices.
-/

namespace Bustub

/-! ## LRU-K replacer: data model (from `lru_k_replacer.cpp`) -/

/-- A per-frame record: access-timestamp history (oldest at the head, at most
`k` entries), the evictable flag, and the cached backward k-distance that
`UpdateKDistance` maintains. -/
structure Frame where
  history : List Nat
  is_evictable : Bool
  k_distance : Nat
  deriving Repr, DecidableEq

instance : Inhabited Frame := ⟨⟨[], false, 0⟩⟩

/-- `std::numeric_limits<size_t>::max()`. -/
def sizeTMax : Nat := 2 ^ 64 - 1

/-- The replacer state: the construction-time constants `replacer_size_` and
`k_`, the frame map (modelled as an association list in insertion order), the
logical clock `current_timestamp_` and the evictable-frame count `curr_size_`. -/
structure LRUK where
  replacer_size : Nat
  k : Nat
  frames : List (Nat × Frame)
  current_timestamp : Nat
  curr_size : Nat
  deriving Repr, DecidableEq

/-- `LRUKReplacer::LRUKReplacer(num_frames, k)`. -/
def LRUK.new (num_frames k : Nat) : LRUK :=
  { replacer_size := num_frames, k := k, frames := [], current_timestamp := 0,
    curr_size := 0 }

/-- Lookup in the frame map (first entry with the given id). -/
def getFrame? (l : List (Nat × Frame)) (fid : Nat) : Option Frame :=
  match l with
  | [] => none
  | (fid2, f) :: rest => if fid2 = fid then some f else getFrame? rest fid

/-- Store a frame under `fid`: replace the first existing entry, or append a
new entry at the end (the behaviour of `frames_[fid] = f`). -/
def setFrame (l : List (Nat × Frame)) (fid : Nat) (f : Frame) :
    List (Nat × Frame) :=
  match l with
  | [] => [(fid, f)]
  | (fid2, g) :: rest =>
      if fid2 = fid then (fid, f) :: rest else (fid2, g) :: setFrame rest fid f

/-- `frames_.erase(fid)`: drop the entry with the given id. -/
def eraseFrame (l : List (Nat × Frame)) (fid : Nat) : List (Nat × Frame) :=
  match l with
  | [] => []
  | (fid2, g) :: rest =>
      if fid2 = fid then rest else (fid2, g) :: eraseFrame rest fid

/-- `LRUKReplacer::CalcKDistance`: `SIZE_MAX` when the history is shorter than
`k`, otherwise `current_timestamp_` minus the history entry at position
`k - 1` (the element `std::advance(history_.begin(), k - 1)` reaches). -/
def calcKDistance (ct k : Nat) (f : Frame) : Nat :=
  if f.history.length < k then sizeTMax
  else ct - f.history.getD (k - 1) 0

/-- The body of `RecordAccess` on one frame record: append the current
timestamp `ct`, trim the history to `k` entries, refresh the cached
k-distance. -/
def touchFrame (ct k : Nat) (f0 : Frame) : Frame :=
  let f1 := { f0 with history := f0.history ++ [ct] }
  let f2 := if k < f1.history.length
            then { f1 with history := f1.history.tail } else f1
  { f2 with k_distance := calcKDistance ct k f2 }

/-- The frame record after the body of `RecordAccess` has run on it.  (A
missing record starts from the default-constructed frame, like
`frames_[frame_id]`.) -/
def accessedFrame (s : LRUK) (fid : Nat) : Frame :=
  touchFrame s.current_timestamp s.k ((getFrame? s.frames fid).getD default)

/-- `LRUKReplacer::RecordAccess`: guard the id, append the current timestamp,
trim the history to `k` entries, refresh the cached k-distance, advance the
clock.  The frame record is created on first access. -/
def LRUK.recordAccess (s : LRUK) (fid : Nat) : Except String LRUK :=
  if s.replacer_size ≤ fid then .error "Invalid frame_id"
  else
    .ok { s with frames := setFrame s.frames fid (accessedFrame s fid),
                 current_timestamp := s.current_timestamp + 1 }

/-- `LRUKReplacer::SetEvictable`: guard the id; no-op when the frame is not
tracked or the flag is unchanged; otherwise flip the flag and adjust
`curr_size_`. -/
def LRUK.setEvictable (s : LRUK) (fid : Nat) (flag : Bool) :
    Except String LRUK :=
  if s.replacer_size ≤ fid then .error "Invalid frame_id"
  else
    match getFrame? s.frames fid with
    | none => .ok s
    | some f =>
        if f.is_evictable ≠ flag then
          .ok { s with frames := setFrame s.frames fid { f with is_evictable := flag },
                       curr_size := if flag then s.curr_size + 1 else s.curr_size - 1 }
        else .ok s

/-- `LRUKReplacer::Remove`: no range guard (the source performs the map lookup
directly); no-op on an untracked id; error on a tracked non-evictable frame;
otherwise erase the record and decrement `curr_size_`. -/
def LRUK.removeFrame (s : LRUK) (fid : Nat) : Except String LRUK :=
  match getFrame? s.frames fid with
  | none => .ok s
  | some f =>
      if f.is_evictable = false then .error "Cannot remove non-evictable frame"
      else .ok { s with frames := eraseFrame s.frames fid,
                        curr_size := s.curr_size - 1 }

/-- The accumulator of the victim scan in `LRUKReplacer::Evict`:
`victim_id` (an `Option` in place of the `-1` sentinel), `max_k_distance`
and `earliest_access`. -/
structure ScanAcc where
  victim : Option Nat
  maxKd : Nat
  earliest : Nat
  deriving Repr, DecidableEq

/-- One iteration of the victim scan over the frame map. -/
def scanStep (acc : ScanAcc) (p : Nat × Frame) : ScanAcc :=
  if p.2.is_evictable = false then acc
  else if p.2.k_distance > acc.maxKd ∨
      (p.2.k_distance = acc.maxKd ∧ p.2.history ≠ [] ∧
        p.2.history.headD 0 < acc.earliest) then
    { victim := some p.1, maxKd := p.2.k_distance,
      earliest := if p.2.history ≠ [] then p.2.history.headD 0 else acc.earliest }
  else acc

/-- `LRUKReplacer::Evict`: return `none` when no frame is evictable, otherwise
scan the frame map for the victim, erase it, and decrement `curr_size_`. -/
def LRUK.evict (s : LRUK) : Option Nat × LRUK :=
  if s.curr_size = 0 then (none, s)
  else
    let acc := s.frames.foldl scanStep ⟨none, 0, s.current_timestamp⟩
    match acc.victim with
    | some vid =>
        (some vid, { s with frames := eraseFrame s.frames vid,
                            curr_size := s.curr_size - 1 })
    | none => (none, s)

/-- `LRUKReplacer::Size`. -/
def LRUK.size (s : LRUK) : Nat := s.curr_size

/-- States reachable from a freshly constructed replacer by the public
operations.  A call that throws leaves the state unchanged (every mutation in
the source happens after its guard), so error outcomes add no new states. -/
inductive RReach (n k : Nat) : LRUK → Prop where
  | init : RReach n k (LRUK.new n k)
  | record {s s2 fid} : RReach n k s → s.recordAccess fid = .ok s2 → RReach n k s2
  | setEv {s s2 fid flag} : RReach n k s → s.setEvictable fid flag = .ok s2 →
      RReach n k s2
  | evict {s} : RReach n k s → RReach n k (s.evict).2
  | remove {s s2 fid} : RReach n k s → s.removeFrame fid = .ok s2 → RReach n k s2

/-- The inductive invariant of the LRU-K replacer (for a replacer constructed
with `num_frames = n` and a positive `k`): the constants are those of the
constructor, the frame-map keys are distinct and in range, `curr_size_` counts
the evictable frames, every tracked history has between `1` and `k` entries of
timestamps below the clock, and the cached k-distance of a frame is `SIZE_MAX`
when its history is shorter than `k` and `0` otherwise (the cache is written
by `RecordAccess` right before the clock advances, so a full history's cached
distance is always `current - current = 0`). -/
structure RInv (n k : Nat) (s : LRUK) : Prop where
  size_eq : s.replacer_size = n
  k_eq : s.k = k
  keys_nd : (s.frames.map Prod.fst).Nodup
  fid_lt : ∀ p ∈ s.frames, p.1 < n
  curr_eq : s.curr_size = (s.frames.filter (fun p => p.2.is_evictable)).length
  hist_len : ∀ p ∈ s.frames, 1 ≤ p.2.history.length ∧ p.2.history.length ≤ k
  hist_ts : ∀ p ∈ s.frames, ∀ t ∈ p.2.history, t < s.current_timestamp
  kd_cache : ∀ p ∈ s.frames,
      p.2.k_distance = if p.2.history.length < k then sizeTMax else 0

/-- Invariant of the victim-scan accumulator after the frames in `M` have
been examined: either no victim is selected yet and no frame of `M` was
evictable, or the selected victim is an evictable frame of `M` whose cached
k-distance is maximal among the evictable frames of `M`, with ties broken by
the smallest `history[0]`; `max_k_distance` and `earliest_access` mirror the
victim's fields. -/
def AccGood (ct : Nat) (M : List (Nat × Frame)) (acc : ScanAcc) : Prop :=
  (acc.victim = none → acc.maxKd = 0 ∧ acc.earliest = ct ∧
      ∀ p ∈ M, p.2.is_evictable = false) ∧
  ∀ vid, acc.victim = some vid →
    ∃ fr, (vid, fr) ∈ M ∧ fr.is_evictable = true ∧ acc.maxKd = fr.k_distance ∧
      acc.earliest = fr.history.headD 0 ∧
      ∀ p ∈ M, p.2.is_evictable = true →
        p.2.k_distance ≤ fr.k_distance ∧
        (p.2.k_distance = fr.k_distance →
          fr.history.headD 0 ≤ p.2.history.headD 0)

/-- The backward k-distance exactly as the specification words it: infinite
(`none`) when the history has fewer than `k` entries, otherwise
`current_timestamp - history[|history| - k]`, the age of the k-th most recent
access. -/
def backwardKDistance (ct k : Nat) (f : Frame) : Option Nat :=
  if f.history.length < k then none
  else some (ct - f.history.getD (f.history.length - k) 0)

/-- Comparison of spec k-distances, where `none` (infinite) is greater than
every finite value. -/
def kdLE : Option Nat → Option Nat → Prop
  | _, none => True
  | none, some _ => False
  | some a, some b => a ≤ b

/-- Concrete replacer states used by the witnesses: `new(7, 2)`, then
`RecordAccess(1)`, `RecordAccess(2)`, `SetEvictable(1, true)`,
`SetEvictable(2, true)`. -/
def wR0 : LRUK := LRUK.new 7 2

def wR1 : LRUK := ((wR0.recordAccess 1).toOption).getD wR0

def wR2 : LRUK := ((wR1.recordAccess 2).toOption).getD wR1

def wR3 : LRUK := ((wR2.setEvictable 1 true).toOption).getD wR2

def wR4 : LRUK := ((wR3.setEvictable 2 true).toOption).getD wR3

/-- A concrete replacer state with one evictable and one pinned frame, used
by the `Remove`-contract witness. -/
def wRS : LRUK :=
  { replacer_size := 5, k := 2,
    frames := [(0, ⟨[0], true, sizeTMax⟩), (1, ⟨[1], false, sizeTMax⟩)],
    current_timestamp := 2, curr_size := 1 }

/-! ## Extendible hash table: data model (from `extendible_hash_table.cpp`) -/

/-- A bucket: the item list `list_`, the capacity `size_` and the local depth
`depth_`. -/
structure Bucket (K V : Type) where
  list : List (K × V)
  size : Nat
  depth : Nat
  deriving DecidableEq

instance {K V : Type} : Inhabited (Bucket K V) := ⟨⟨[], 0, 0⟩⟩

/-- Modelled from the spec: `Bucket::IsFull` is declared inline in the header
(not part of this repository's sources); per the spec a bucket holds up to
`bucket_size` items and is full exactly when it holds that many. -/
def Bucket.isFull {K V : Type} (b : Bucket K V) : Bool :=
  b.list.length == b.size

/-- `Bucket::Find`: linear scan, first matching key wins. -/
def Bucket.find {K V : Type} [DecidableEq K] (b : Bucket K V) (k : K) :
    Option V :=
  (b.list.find? (fun kv => kv.1 == k)).map (fun kv => kv.2)

/-- Overwrite the value of the first entry whose key is `k` (the C++ scans
`list_` and assigns `item.second`); `none` when no entry matches. -/
def replaceFirstValue {K V : Type} [DecidableEq K] :
    List (K × V) → K → V → Option (List (K × V))
  | [], _, _ => none
  | (k2, v2) :: rest, k, v =>
      if k2 = k then some ((k2, v) :: rest)
      else (replaceFirstValue rest k v).map (fun l => (k2, v2) :: l)

/-- Remove the first entry whose key is `k` (`list_.erase(it)`); `none` when
no entry matches. -/
def eraseFirstKey {K V : Type} [DecidableEq K] :
    List (K × V) → K → Option (List (K × V))
  | [], _ => none
  | (k2, v2) :: rest, k =>
      if k2 = k then some rest
      else (eraseFirstKey rest k).map (fun l => (k2, v2) :: l)

/-- `Bucket::Remove`. -/
def Bucket.remove {K V : Type} [DecidableEq K] (b : Bucket K V) (k : K) :
    Bucket K V × Bool :=
  match eraseFirstKey b.list k with
  | some l => ({ b with list := l }, true)
  | none => (b, false)

/-- `Bucket::Insert`: when full, only an overwrite of an existing key
succeeds; otherwise overwrite an existing key or append the new pair. -/
def Bucket.insert {K V : Type} [DecidableEq K] (b : Bucket K V) (k : K)
    (v : V) : Bucket K V × Bool :=
  if b.isFull then
    match replaceFirstValue b.list k v with
    | some l => ({ b with list := l }, true)
    | none => (b, false)
  else
    match replaceFirstValue b.list k v with
    | some l => ({ b with list := l }, true)
    | none => ({ b with list := b.list ++ [(k, v)] }, true)

/-- The extendible hash table state: `global_depth_`, the directory `dir_`
(storing arena indices of the shared bucket objects, so C++ pointer equality
is index equality), the bucket arena, `bucket_size_` and `num_buckets_`. -/
structure HT (K V : Type) where
  global_depth : Nat
  dir : List Nat
  buckets : List (Bucket K V)
  bucket_size : Nat
  num_buckets : Nat
  deriving DecidableEq

/-- `ExtendibleHashTable(bucket_size)`: one empty bucket of local depth 0,
`global_depth_ = 0`, `num_buckets_ = 1`. -/
def HT.new (K V : Type) (bucket_size : Nat) : HT K V :=
  { global_depth := 0, dir := [0], buckets := [⟨[], bucket_size, 0⟩],
    bucket_size := bucket_size, num_buckets := 1 }

/-- `IndexOf`: the key's hash masked by `(1 << global_depth) - 1`. -/
def HT.indexOf {K V : Type} (hash : K → Nat) (s : HT K V) (k : K) : Nat :=
  hash k % 2 ^ s.global_depth

/-- `Find`: scan the bucket the directory assigns to the key's slot. -/
def HT.find {K V : Type} [DecidableEq K] (hash : K → Nat) (s : HT K V)
    (k : K) : Option V :=
  (s.buckets.getD (s.dir.getD (HT.indexOf hash s k) 0) default).find k

/-- `Remove`: delegate to the bucket at the key's slot. -/
def HT.remove {K V : Type} [DecidableEq K] (hash : K → Nat) (s : HT K V)
    (k : K) : HT K V × Bool :=
  let index := HT.indexOf hash s k
  let bid := s.dir.getD index 0
  let p := (s.buckets.getD bid default).remove k
  ({ s with buckets := s.buckets.set bid p.1 }, p.2)

/-- The directory-doubling step of `Insert`: when the target bucket's local
depth equals the global depth, append a copy of the directory to itself and
increment `global_depth_`. -/
def maybeDouble {K V : Type} (s : HT K V) (bid : Nat) : HT K V :=
  if (s.buckets.getD bid default).depth = s.global_depth then
    { s with dir := s.dir ++ s.dir, global_depth := s.global_depth + 1 }
  else s

/-- The directory-pointer redistribution loop of `Insert`: every slot that
matches `directory_index` in the low `local_depth` bits and still aliases the
split bucket is rebound according to bit `local_depth` of its index
(`(i & mask) == 0` keeps the old bucket, otherwise the new one). -/
def dirAfterSplit (dir : List Nat) (ld dirIndex bid newBid : Nat) :
    List Nat :=
  (List.range dir.length).map fun i =>
    if i % 2 ^ ld = dirIndex ∧ dir.getD i 0 = bid then
      (if i / 2 ^ ld % 2 = 0 then bid else newBid)
    else dir.getD i 0

/-- The item-redistribution loop of `Insert`: walk the split bucket's items;
an item whose directory slot no longer points at the split bucket is inserted
into the new bucket and erased from the old one. -/
def redistribute {K V : Type} [DecidableEq K] (iof : K → Nat)
    (dir : List Nat) (bid : Nat) :
    List (K × V) → Bucket K V → List (K × V) × Bucket K V
  | [], nb => ([], nb)
  | (k, v) :: rest, nb =>
      if dir.getD (iof k) 0 ≠ bid then
        redistribute iof dir bid rest ((nb.insert k v).1)
      else
        let p := redistribute iof dir bid rest nb
        ((k, v) :: p.1, p.2)

/-- The split of the full target bucket `bid`, after any directory doubling:
create the new bucket with local depth `local_depth + 1`, increment the
target's depth, redistribute the directory pointers and then the items, and
finally `num_buckets_++`.  `index` is the key's directory index computed at
the top of the loop iteration (before any doubling). -/
def splitCoreFn {K V : Type} [DecidableEq K] (hash : K → Nat) (t : HT K V)
    (index bid : Nat) : HT K V :=
  let b := t.buckets.getD bid default
  let ld := b.depth
  let newBid := t.buckets.length
  let dir2 := dirAfterSplit t.dir ld (index % 2 ^ ld) bid newBid
  let p := redistribute (fun k2 => hash k2 % 2 ^ t.global_depth) dir2 bid
    b.list ⟨[], t.bucket_size, ld + 1⟩
  { global_depth := t.global_depth, dir := dir2,
    buckets := (t.buckets.set bid { b with depth := ld + 1, list := p.1 })
      ++ [p.2],
    bucket_size := t.bucket_size, num_buckets := t.num_buckets + 1 }

/-- One full-bucket iteration of the `Insert` loop: double the directory if
needed, then split the target bucket. -/
def splitStep {K V : Type} [DecidableEq K] (hash : K → Nat) (s : HT K V)
    (index bid : Nat) : HT K V :=
  splitCoreFn hash (maybeDouble s bid) index bid

/-- The `while (true)` loop of `Insert`, with explicit fuel: try the bucket
insert; on failure split the target bucket and retry. -/
def insertLoop {K V : Type} [DecidableEq K] (hash : K → Nat) :
    Nat → HT K V → K → V → Option (HT K V)
  | 0, _, _, _ => none
  | fuel + 1, s, k, v =>
      let index := HT.indexOf hash s k
      let bid := s.dir.getD index 0
      let b := s.buckets.getD bid default
      let p := b.insert k v
      if p.2 then some { s with buckets := s.buckets.set bid p.1 }
      else insertLoop hash fuel (splitStep hash s index bid) k v

/-- One observable hash-table event: an insert, or a remove together with
the boolean the call returned. -/
inductive Event (K V : Type) where
  | insertE (k : K) (v : V)
  | removeE (k : K) (ret : Bool)

/-- Executions of the public hash-table API from a fresh table: each
`Insert` is a terminating run of the insert loop (with some fuel), each
`Remove` records the boolean it returned. -/
inductive RunTrace {K V : Type} [DecidableEq K] (hash : K → Nat) (bs : Nat) :
    List (Event K V) → HT K V → Prop where
  | init : RunTrace hash bs [] (HT.new K V bs)
  | insert {evs s fuel s2 k v} : RunTrace hash bs evs s →
      insertLoop hash fuel s k v = some s2 →
      RunTrace hash bs (evs ++ [Event.insertE k v]) s2
  | remove {evs s k} : RunTrace hash bs evs s →
      RunTrace hash bs (evs ++ [Event.removeE k (HT.remove hash s k).2])
        (HT.remove hash s k).1

/-- The abstract map semantics the specification's H1 describes, one event
at a time: the last insert for a key wins and a remove clears the key. -/
def applyEvent {K V : Type} [DecidableEq K] (m : K → Option V) :
    Event K V → K → Option V
  | Event.insertE k v, k2 => if k2 = k then some v else m k2
  | Event.removeE k _, k2 => if k2 = k then none else m k2

/-- The abstract map after a whole event sequence (the spec-side model for
the refinement claim H1). -/
def specMap {K V : Type} [DecidableEq K] (evs : List (Event K V)) :
    K → Option V :=
  evs.foldl applyEvent (fun _ => none)

/-- All keys stored in the table, bucket by bucket. -/
def keysList {K V : Type} (s : HT K V) : List K :=
  (s.buckets.map (fun b => b.list.map Prod.fst)).flatten

/-- The local depth of the bucket serving the key's directory slot. -/
def depthAt {K V : Type} (hash : K → Nat) (s : HT K V) (k : K) : Nat :=
  (s.buckets.getD (s.dir.getD (HT.indexOf hash s k) 0) default).depth

/-- The inductive invariant of the extendible hash table: the directory has
`2 ^ global_depth` slots, each naming a live bucket of the arena;
`num_buckets_` counts the arena; every bucket respects the capacity, carries
the construction capacity, a local depth at most the global depth, and
duplicate-free keys; the slots referencing a bucket are exactly those whose
index matches the bucket's residue in the low `local_depth` bits (H2); and
every stored key hashes to a slot that points back at its bucket (H3). -/
structure HInv {K V : Type} [DecidableEq K] (hash : K → Nat) (s : HT K V) :
    Prop where
  dlen : s.dir.length = 2 ^ s.global_depth
  nbuckets : s.num_buckets = s.buckets.length
  dval : ∀ i < s.dir.length, s.dir.getD i 0 < s.buckets.length
  bsize : ∀ b ∈ s.buckets, b.size = s.bucket_size
  cap : ∀ b ∈ s.buckets, b.list.length ≤ s.bucket_size
  depth_le : ∀ b ∈ s.buckets, b.depth ≤ s.global_depth
  uniq : ∀ b ∈ s.buckets, (b.list.map Prod.fst).Nodup
  aliasing : ∀ bid < s.buckets.length,
      ∃ r < 2 ^ (s.buckets.getD bid default).depth,
        ∀ i < s.dir.length,
          (s.dir.getD i 0 = bid ↔
            i % 2 ^ (s.buckets.getD bid default).depth = r)
  contents : ∀ bid < s.buckets.length,
      ∀ kv ∈ (s.buckets.getD bid default).list,
        s.dir.getD (hash kv.1 % 2 ^ s.global_depth) 0 = bid

/-- The identity hash used by the witness instantiations. -/
def hashId : Nat → Nat := fun n => n

/-- Concrete hash-table states used by the witnesses: `new(2)`, then
`Insert(1,10)`, `Insert(2,20)`, `Insert(3,30)` (this one splits),
`Insert(1,11)` (an overwrite), `Remove(2)`. -/
def wH0 : HT Nat Nat := HT.new Nat Nat 2

def wH1 : HT Nat Nat := (insertLoop hashId 9 wH0 1 10).getD wH0

def wH2 : HT Nat Nat := (insertLoop hashId 9 wH1 2 20).getD wH1

def wH3 : HT Nat Nat := (insertLoop hashId 9 wH2 3 30).getD wH2

def wH4 : HT Nat Nat := (insertLoop hashId 9 wH3 1 11).getD wH3

def wH5 : HT Nat Nat := (HT.remove hashId wH4 2).1

/-! ## List helper lemmas -/

theorem getD_zero_eq_headD (l : List Nat) (d : Nat) : l.getD 0 d = l.headD d := by
  cases l <;> rfl

theorem getD_append_length (l : List Nat) (a d : Nat) :
    (l ++ [a]).getD l.length d = a := by
  induction l with
  | nil => rfl
  | cons x xs ih => simp only [List.cons_append, List.getD_cons_succ]; exact ih

theorem headD_mem {l : List Nat} (h : l ≠ []) (d : Nat) : l.headD d ∈ l := by
  cases l with
  | nil => exact absurd rfl h
  | cons x xs => exact List.mem_cons_self x xs

/-! ## Frame-map (association list) lemmas -/

theorem getFrame?_some_mem {l : List (Nat × Frame)} {fid : Nat} {f : Frame}
    (h : getFrame? l fid = some f) : (fid, f) ∈ l := by
  induction l with
  | nil => simp [getFrame?] at h
  | cons p rest ih =>
      by_cases hf : p.1 = fid
      · rw [show p = (p.1, p.2) from rfl] at h ⊢
        simp only [getFrame?, hf, if_pos, Option.some.injEq] at h
        rw [← h, ← hf]
        exact List.mem_cons_self _ _
      · rw [show p = (p.1, p.2) from rfl] at h
        simp only [getFrame?, hf, if_neg, if_false] at h
        exact List.mem_cons_of_mem _ (ih h)

theorem mem_getFrame? {l : List (Nat × Frame)} {fid : Nat} {f : Frame}
    (hnd : (l.map Prod.fst).Nodup) (h : (fid, f) ∈ l) : getFrame? l fid = some f := by
  induction l with
  | nil => simp at h
  | cons p rest ih =>
      rw [List.map_cons, List.nodup_cons] at hnd
      rcases List.mem_cons.1 h with h | h
      · rw [show p = (p.1, p.2) from rfl, getFrame?]
        have h1 : p.1 = fid := by rw [← h]
        have h2 : p.2 = f := by rw [← h]
        simp [h1, h2]
      · rw [show p = (p.1, p.2) from rfl, getFrame?]
        have hne : p.1 ≠ fid := by
          intro he
          exact hnd.1 (he ▸ (List.mem_map.2 ⟨(fid, f), h, rfl⟩))
        simp only [hne, if_neg, if_false]
        exact ih hnd.2 h

theorem getFrame?_none_not_mem {l : List (Nat × Frame)} {fid : Nat}
    (h : getFrame? l fid = none) : ∀ f : Frame, (fid, f) ∉ l := by
  induction l with
  | nil => intro f hf; simp at hf
  | cons p rest ih =>
      by_cases hf : p.1 = fid
      · rw [show p = (p.1, p.2) from rfl] at h
        simp [getFrame?, hf] at h
      · rw [show p = (p.1, p.2) from rfl] at h
        simp only [getFrame?, hf, if_neg, if_false] at h
        intro f hmem
        rcases List.mem_cons.1 hmem with he | hmem
        · exact hf (congrArg Prod.fst he.symm)
        · exact ih h f hmem

theorem mem_setFrame_elim {l : List (Nat × Frame)} {fid : Nat} {f : Frame}
    {p : Nat × Frame} (h : p ∈ setFrame l fid f) : p = (fid, f) ∨ p ∈ l := by
  induction l with
  | nil => simp [setFrame] at h; exact Or.inl h
  | cons q rest ih =>
      rw [show q = (q.1, q.2) from rfl, setFrame] at h
      by_cases hf : q.1 = fid
      · simp only [hf, if_pos] at h
        rcases List.mem_cons.1 h with h | h
        · exact Or.inl h
        · exact Or.inr (List.mem_cons_of_mem _ h)
      · simp only [hf, if_neg, if_false] at h
        rcases List.mem_cons.1 h with h | h
        · exact Or.inr (h ▸ List.mem_cons_self _ _)
        · rcases ih h with h | h
          · exact Or.inl h
          · exact Or.inr (List.mem_cons_of_mem _ h)

theorem mem_keys_setFrame {l : List (Nat × Frame)} {fid : Nat} {f : Frame}
    {a : Nat} (h : a ∈ (setFrame l fid f).map Prod.fst) :
    a ∈ l.map Prod.fst ∨ a = fid := by
  rcases List.mem_map.1 h with ⟨p, hp, rfl⟩
  rcases mem_setFrame_elim hp with h | h
  · exact Or.inr (by rw [h])
  · exact Or.inl (List.mem_map.2 ⟨p, h, rfl⟩)

theorem nodup_keys_setFrame {l : List (Nat × Frame)} {fid : Nat} {f : Frame}
    (hnd : (l.map Prod.fst).Nodup) : ((setFrame l fid f).map Prod.fst).Nodup := by
  induction l with
  | nil => simp [setFrame]
  | cons q rest ih =>
      rw [List.map_cons, List.nodup_cons] at hnd
      rw [show q = (q.1, q.2) from rfl, setFrame]
      by_cases hf : q.1 = fid
      · simp only [hf, if_pos, List.map_cons, List.nodup_cons]
        exact ⟨hf ▸ hnd.1, hnd.2⟩
      · simp only [hf, if_neg, if_false, List.map_cons, List.nodup_cons]
        refine ⟨fun hmem => ?_, ih hnd.2⟩
        rcases mem_keys_setFrame hmem with h | h
        · exact hnd.1 h
        · exact hf h

theorem mem_eraseFrame {l : List (Nat × Frame)} {fid : Nat} {p : Nat × Frame}
    (h : p ∈ eraseFrame l fid) : p ∈ l := by
  induction l with
  | nil => simp [eraseFrame] at h
  | cons q rest ih =>
      rw [show q = (q.1, q.2) from rfl, eraseFrame] at h
      by_cases hf : q.1 = fid
      · simp only [hf, if_pos] at h
        exact List.mem_cons_of_mem _ h
      · simp only [hf, if_neg, if_false] at h
        rcases List.mem_cons.1 h with h | h
        · exact h ▸ List.mem_cons_self _ _
        · exact List.mem_cons_of_mem _ (ih h)

theorem keys_eraseFrame_sublist (l : List (Nat × Frame)) (fid : Nat) :
    List.Sublist ((eraseFrame l fid).map Prod.fst) (l.map Prod.fst) := by
  induction l with
  | nil => simp [eraseFrame]
  | cons q rest ih =>
      rw [show q = (q.1, q.2) from rfl, eraseFrame]
      by_cases hf : q.1 = fid
      · simp only [hf, if_pos, List.map_cons]
        exact List.sublist_cons_self _ _
      · simp only [hf, if_neg, if_false, List.map_cons]
        exact List.Sublist.cons₂ _ ih

theorem filter_length_setFrame (p : Nat × Frame → Bool)
    {l : List (Nat × Frame)} {fid : Nat} {g : Frame} (f : Frame)
    (hget : getFrame? l fid = some g) :
    ((setFrame l fid f).filter p).length + (if p (fid, g) then 1 else 0) =
      (l.filter p).length + (if p (fid, f) then 1 else 0) := by
  induction l with
  | nil => simp [getFrame?] at hget
  | cons q rest ih =>
      rw [show q = (q.1, q.2) from rfl] at hget ⊢
      by_cases hf : q.1 = fid
      · simp only [getFrame?, hf, if_pos, Option.some.injEq] at hget
        rw [setFrame]
        simp only [hf, if_pos]
        subst hget
        subst hf
        rw [List.filter_cons, List.filter_cons]
        cases hb1 : p (q.1, f) <;> cases hb2 : p (q.1, q.2) <;>
          simp [hb1, hb2]
      · simp only [getFrame?, hf, if_neg, if_false] at hget
        have ih2 := ih hget
        rw [setFrame]
        simp only [hf, if_neg, if_false]
        rw [List.filter_cons, List.filter_cons]
        cases hb : p (q.1, q.2) <;> simp [hb] <;> omega

theorem filter_length_setFrame_absent (p : Nat × Frame → Bool)
    {l : List (Nat × Frame)} {fid : Nat} (f : Frame)
    (hget : getFrame? l fid = none) :
    ((setFrame l fid f).filter p).length =
      (l.filter p).length + (if p (fid, f) then 1 else 0) := by
  induction l with
  | nil =>
      simp only [setFrame, List.filter_nil, List.length_nil, List.filter_cons]
      cases hb : p (fid, f) <;> simp [hb]
  | cons q rest ih =>
      rw [show q = (q.1, q.2) from rfl] at hget ⊢
      by_cases hf : q.1 = fid
      · simp [getFrame?, hf] at hget
      · simp only [getFrame?, hf, if_neg, if_false] at hget
        have ih2 := ih hget
        rw [setFrame]
        simp only [hf, if_neg, if_false]
        rw [List.filter_cons, List.filter_cons]
        cases hb : p (q.1, q.2) <;> simp [hb] <;> omega

theorem filter_length_eraseFrame (p : Nat × Frame → Bool)
    {l : List (Nat × Frame)} {fid : Nat} {g : Frame}
    (hget : getFrame? l fid = some g) :
    ((eraseFrame l fid).filter p).length + (if p (fid, g) then 1 else 0) =
      (l.filter p).length := by
  induction l with
  | nil => simp [getFrame?] at hget
  | cons q rest ih =>
      rw [show q = (q.1, q.2) from rfl] at hget ⊢
      by_cases hf : q.1 = fid
      · simp only [getFrame?, hf, if_pos, Option.some.injEq] at hget
        rw [eraseFrame]
        simp only [hf, if_pos]
        subst hget
        subst hf
        rw [List.filter_cons]
        cases hb : p (q.1, q.2) <;> simp [hb]
      · simp only [getFrame?, hf, if_neg, if_false] at hget
        have ih2 := ih hget
        rw [eraseFrame]
        simp only [hf, if_neg, if_false]
        rw [List.filter_cons, List.filter_cons]
        cases hb : p (q.1, q.2) <;> simp [hb] <;> omega

/-! ## Properties of `touchFrame` -/

theorem touchFrame_is_evictable (ct k : Nat) (f0 : Frame) :
    (touchFrame ct k f0).is_evictable = f0.is_evictable := by
  unfold touchFrame
  dsimp only
  split <;> rfl

theorem touchFrame_spec (ct k : Nat) (f0 : Frame) (hk : 1 ≤ k)
    (hlen : f0.history.length ≤ k) :
    1 ≤ (touchFrame ct k f0).history.length ∧
    (touchFrame ct k f0).history.length ≤ k ∧
    (∀ t ∈ (touchFrame ct k f0).history, t ∈ f0.history ∨ t = ct) ∧
    (touchFrame ct k f0).k_distance =
      (if (touchFrame ct k f0).history.length < k then sizeTMax else 0) := by
  obtain ⟨h0, ev0, kd0⟩ := f0
  dsimp only at hlen
  unfold touchFrame
  dsimp only
  by_cases hc : k < (h0 ++ [ct]).length
  · rw [if_pos hc]
    dsimp only
    rw [List.length_append, List.length_cons, List.length_nil] at hc
    cases h0 with
    | nil => simp at hc; omega
    | cons x xs =>
        rw [List.cons_append, List.tail_cons]
        rw [List.length_cons] at hlen hc
        have hxs : (xs ++ [ct]).length = k := by
          rw [List.length_append, List.length_cons, List.length_nil]; omega
        refine ⟨by rw [hxs]; omega, by rw [hxs], ?_, ?_⟩
        · intro t ht
          rcases List.mem_append.1 ht with ht | ht
          · exact Or.inl (List.mem_cons_of_mem _ ht)
          · exact Or.inr (List.mem_singleton.1 ht)
        · rw [calcKDistance]
          dsimp only
          rw [hxs]
          rw [if_neg (by omega), if_neg (by omega)]
          have hgd : (xs ++ [ct]).getD (k - 1) 0 = ct := by
            have he : k - 1 = xs.length := by omega
            rw [he]
            exact getD_append_length xs ct 0
          rw [hgd]
          omega
  · rw [if_neg hc]
    dsimp only
    rw [List.length_append, List.length_cons, List.length_nil] at hc
    have h1 : (h0 ++ [ct]).length = h0.length + 1 := by
      rw [List.length_append, List.length_cons, List.length_nil]
    refine ⟨by rw [h1]; omega, by rw [h1]; omega, ?_, ?_⟩
    · intro t ht
      rcases List.mem_append.1 ht with ht | ht
      · exact Or.inl ht
      · exact Or.inr (List.mem_singleton.1 ht)
    · rw [calcKDistance]
      dsimp only
      rw [h1]
      by_cases h2 : h0.length + 1 < k
      · rw [if_pos h2, if_pos h2]
      · rw [if_neg h2, if_neg h2]
        have hgd : (h0 ++ [ct]).getD (k - 1) 0 = ct := by
          have he : k - 1 = h0.length := by omega
          rw [he]
          exact getD_append_length h0 ct 0
        rw [hgd]
        omega

/-! ## The replacer invariant -/

theorem rinv_new (n k : Nat) : RInv n k (LRUK.new n k) := by
  constructor <;> simp [LRUK.new]

theorem rinv_recordAccess {n k : Nat} {s s2 : LRUK} {fid : Nat} (hk : 1 ≤ k)
    (hinv : RInv n k s) (h : s.recordAccess fid = .ok s2) : RInv n k s2 := by
  unfold LRUK.recordAccess at h
  by_cases hguard : s.replacer_size ≤ fid
  · rw [if_pos hguard] at h; exact absurd h (by simp)
  · rw [if_neg hguard] at h
    have hfid : fid < n := by rw [← hinv.size_eq]; omega
    injection h with h
    subst h
    have hk2 : 1 ≤ s.k := by rw [hinv.k_eq]; exact hk
    have hlen0 : ((getFrame? s.frames fid).getD default).history.length ≤ s.k := by
      cases hget : getFrame? s.frames fid with
      | none => simp [default]
      | some g =>
          simp only [Option.getD_some]
          rw [hinv.k_eq]
          exact (hinv.hist_len _ (getFrame?_some_mem hget)).2
    have hspec := touchFrame_spec s.current_timestamp s.k
      ((getFrame? s.frames fid).getD default) hk2 hlen0
    have haf : accessedFrame s fid =
        touchFrame s.current_timestamp s.k ((getFrame? s.frames fid).getD default) := rfl
    refine ⟨hinv.size_eq, hinv.k_eq, nodup_keys_setFrame hinv.keys_nd, ?_, ?_, ?_, ?_, ?_⟩
    · intro p hp
      rcases mem_setFrame_elim hp with hp | hp
      · rw [hp]; exact hfid
      · exact hinv.fid_lt p hp
    · show s.curr_size = _
      dsimp only
      cases hget : getFrame? s.frames fid with
      | none =>
          rw [filter_length_setFrame_absent _ _ hget]
          have hev : (accessedFrame s fid).is_evictable = false := by
            rw [haf, touchFrame_is_evictable, hget]
            rfl
          rw [hinv.curr_eq]
          simp [hev]
      | some g =>
          have heq := filter_length_setFrame (fun p => p.2.is_evictable)
            (accessedFrame s fid) hget
          have hev : (accessedFrame s fid).is_evictable = g.is_evictable := by
            rw [haf, touchFrame_is_evictable, hget]
            rfl
          dsimp only at heq
          rw [hev] at heq
          rw [hinv.curr_eq]
          omega
    · intro p hp
      rcases mem_setFrame_elim hp with hp | hp
      · rw [hp]
        dsimp only
        rw [haf, ← hinv.k_eq]
        exact ⟨hspec.1, hspec.2.1⟩
      · exact hinv.hist_len p hp
    · intro p hp t ht
      show t < s.current_timestamp + 1
      rcases mem_setFrame_elim hp with hp | hp
      · rw [hp] at ht
        dsimp only at ht
        rw [haf] at ht
        rcases hspec.2.2.1 t ht with h2 | h2
        · cases hget : getFrame? s.frames fid with
          | none => rw [hget] at h2; simp [default] at h2
          | some g =>
              rw [hget] at h2
              simp only [Option.getD_some] at h2
              have := hinv.hist_ts _ (getFrame?_some_mem hget) t h2
              omega
        · omega
      · have := hinv.hist_ts p hp t ht
        omega
    · intro p hp
      rcases mem_setFrame_elim hp with hp | hp
      · rw [hp]
        dsimp only
        rw [haf, ← hinv.k_eq]
        exact hspec.2.2.2
      · exact hinv.kd_cache p hp

theorem rinv_setEvictable {n k : Nat} {s s2 : LRUK} {fid : Nat} {flag : Bool}
    (hinv : RInv n k s) (h : s.setEvictable fid flag = .ok s2) : RInv n k s2 := by
  unfold LRUK.setEvictable at h
  by_cases hguard : s.replacer_size ≤ fid
  · rw [if_pos hguard] at h; exact absurd h (by simp)
  · rw [if_neg hguard] at h
    have hfid : fid < n := by rw [← hinv.size_eq]; omega
    cases hget : getFrame? s.frames fid with
    | none => rw [hget] at h; injection h with h; subst h; exact hinv
    | some g =>
        rw [hget] at h
        dsimp only at h
        by_cases hne : g.is_evictable ≠ flag
        · rw [if_pos hne] at h
          injection h with h
          subst h
          have hmem := getFrame?_some_mem hget
          refine ⟨hinv.size_eq, hinv.k_eq, nodup_keys_setFrame hinv.keys_nd,
            ?_, ?_, ?_, ?_, ?_⟩
          · intro p hp
            rcases mem_setFrame_elim hp with hp | hp
            · rw [hp]; exact hfid
            · exact hinv.fid_lt p hp
          · show (if flag then s.curr_size + 1 else s.curr_size - 1) = _
            dsimp only
            have heq := filter_length_setFrame (fun p => p.2.is_evictable)
              { g with is_evictable := flag } hget
            dsimp only at heq
            have hcurr := hinv.curr_eq
            cases flag with
            | true =>
                have hg : g.is_evictable = false := by
                  cases hb : g.is_evictable
                  · rfl
                  · exact absurd (by rw [hb]) hne
                rw [hg] at heq
                simp only [Bool.false_eq_true, if_false, if_true] at heq ⊢
                omega
            | false =>
                have hg : g.is_evictable = true := by
                  cases hb : g.is_evictable
                  · exact absurd (by rw [hb]) hne
                  · rfl
                rw [hg] at heq
                simp only [Bool.false_eq_true, if_false, if_true] at heq ⊢
                omega
          · intro p hp
            rcases mem_setFrame_elim hp with hp | hp
            · rw [hp]
              dsimp only
              exact hinv.hist_len _ hmem
            · exact hinv.hist_len p hp
          · intro p hp
            rcases mem_setFrame_elim hp with hp | hp
            · rw [hp]
              dsimp only
              exact hinv.hist_ts _ hmem
            · exact hinv.hist_ts p hp
          · intro p hp
            rcases mem_setFrame_elim hp with hp | hp
            · rw [hp]
              dsimp only
              exact hinv.kd_cache _ hmem
            · exact hinv.kd_cache p hp
        · rw [if_neg hne] at h
          injection h with h
          subst h
          exact hinv

theorem rinv_removeFrame {n k : Nat} {s s2 : LRUK} {fid : Nat}
    (hinv : RInv n k s) (h : s.removeFrame fid = .ok s2) : RInv n k s2 := by
  unfold LRUK.removeFrame at h
  cases hget : getFrame? s.frames fid with
  | none => rw [hget] at h; injection h with h; subst h; exact hinv
  | some g =>
      rw [hget] at h
      dsimp only at h
      by_cases hev : g.is_evictable = false
      · rw [if_pos hev] at h; exact absurd h (by simp)
      · rw [if_neg hev] at h
        injection h with h
        subst h
        have hg : g.is_evictable = true := by
          cases hb : g.is_evictable
          · exact absurd hb hev
          · rfl
        refine ⟨hinv.size_eq, hinv.k_eq,
          (keys_eraseFrame_sublist s.frames fid).nodup hinv.keys_nd,
          ?_, ?_, ?_, ?_, ?_⟩
        · intro p hp
          exact hinv.fid_lt p (mem_eraseFrame hp)
        · show s.curr_size - 1 = _
          dsimp only
          have heq := filter_length_eraseFrame (fun p => p.2.is_evictable) hget
          dsimp only at heq
          rw [hg] at heq
          simp only [if_true] at heq
          have hcurr := hinv.curr_eq
          omega
        · intro p hp
          exact hinv.hist_len p (mem_eraseFrame hp)
        · intro p hp
          exact hinv.hist_ts p (mem_eraseFrame hp)
        · intro p hp
          exact hinv.kd_cache p (mem_eraseFrame hp)

/-! ## The victim scan of `Evict` -/

theorem accGood_init (ct : Nat) : AccGood ct [] ⟨none, 0, ct⟩ := by
  constructor
  · intro hv
    exact ⟨rfl, rfl, by simp⟩
  · intro vid hv
    simp at hv

theorem accGood_step {ct : Nat} {M : List (Nat × Frame)} {acc : ScanAcc}
    {p : Nat × Frame} (hne : p.2.history ≠ [])
    (hev : p.2.is_evictable = true → p.2.history.headD 0 < ct)
    (hacc : AccGood ct M acc) : AccGood ct (M ++ [p]) (scanStep acc p) := by
  obtain ⟨hnone, hsome⟩ := hacc
  unfold scanStep
  by_cases hb : p.2.is_evictable = false
  · rw [if_pos hb]
    constructor
    · intro hv
      obtain ⟨h1, h2, h3⟩ := hnone hv
      refine ⟨h1, h2, ?_⟩
      intro q hq
      rcases List.mem_append.1 hq with hq | hq
      · exact h3 q hq
      · rw [List.mem_singleton.1 hq]
        exact hb
    · intro vid hv
      obtain ⟨fr, hfrmem, hfrev, hmax, hearl, hall⟩ := hsome vid hv
      refine ⟨fr, List.mem_append_left _ hfrmem, hfrev, hmax, hearl, ?_⟩
      intro q hq hqev
      rcases List.mem_append.1 hq with hq | hq
      · exact hall q hq hqev
      · rw [List.mem_singleton.1 hq] at hqev
        rw [hqev] at hb
        simp at hb
  · have hb2 : p.2.is_evictable = true := by
      cases hbb : p.2.is_evictable
      · exact absurd hbb hb
      · rfl
    rw [if_neg hb]
    have hlt := hev hb2
    by_cases hcond : p.2.k_distance > acc.maxKd ∨
        (p.2.k_distance = acc.maxKd ∧ p.2.history ≠ [] ∧
          p.2.history.headD 0 < acc.earliest)
    · rw [if_pos hcond]
      constructor
      · intro hv
        exact absurd hv (by simp)
      · intro vid hv
        dsimp only at hv
        have hvid : p.1 = vid := Option.some.inj hv
        refine ⟨p.2, ?_, hb2, rfl, ?_, ?_⟩
        · rw [← hvid]
          exact List.mem_append_right _ (by simp)
        · dsimp only
          rw [if_pos hne]
        · intro q hq hqev
          rcases List.mem_append.1 hq with hq | hq
          · cases hvac : acc.victim with
            | none =>
                obtain ⟨h1, h2, h3⟩ := hnone hvac
                exact absurd hqev (by rw [h3 q hq]; simp)
            | some w =>
                obtain ⟨fr, hfrmem, hfrev, hmax, hearl, hall⟩ := hsome w hvac
                have hq2 := hall q hq hqev
                rcases hcond with hcond | hcond
                · constructor
                  · omega
                  · intro htie
                    omega
                · obtain ⟨hkd, _, hh0⟩ := hcond
                  constructor
                  · omega
                  · intro htie
                    have := hq2.2 (by omega)
                    omega
          · rw [List.mem_singleton.1 hq]
            exact ⟨le_refl _, fun _ => le_refl _⟩
    · rw [if_neg hcond]
      push_neg at hcond
      obtain ⟨hkdle, htie⟩ := hcond
      constructor
      · intro hv
        obtain ⟨h1, h2, _⟩ := hnone hv
        rw [h1] at hkdle htie
        rw [h2] at htie
        have hkd0 : p.2.k_distance = 0 := by omega
        have := htie hkd0 hne
        omega
      · intro vid hv
        obtain ⟨fr, hfrmem, hfrev, hmax, hearl, hall⟩ := hsome vid hv
        refine ⟨fr, List.mem_append_left _ hfrmem, hfrev, hmax, hearl, ?_⟩
        intro q hq hqev
        rcases List.mem_append.1 hq with hq | hq
        · exact hall q hq hqev
        · rw [List.mem_singleton.1 hq]
          constructor
          · omega
          · intro htie2
            have := htie (by omega) hne
            omega

theorem scan_go (ct : Nat) :
    ∀ (L M : List (Nat × Frame)) (acc : ScanAcc),
      (∀ p ∈ L, p.2.history ≠ [] ∧
        (p.2.is_evictable = true → p.2.history.headD 0 < ct)) →
      AccGood ct M acc → AccGood ct (M ++ L) (L.foldl scanStep acc)
  | [], M, acc, _, hacc => by simpa using hacc
  | p :: L2, M, acc, hL, hacc => by
      have h1 := accGood_step (hL p (List.mem_cons_self _ _)).1
        (hL p (List.mem_cons_self _ _)).2 hacc
      have h2 := scan_go ct L2 (M ++ [p]) (scanStep acc p)
        (fun q hq => hL q (List.mem_cons_of_mem _ hq)) h1
      rw [List.append_assoc, List.singleton_append] at h2
      rw [List.foldl_cons]
      exact h2

/-- In an invariant state, the full victim scan of `Evict` satisfies
`AccGood` over the whole frame map. -/
theorem evict_scan_good {n k : Nat} {s : LRUK} (hinv : RInv n k s) :
    AccGood s.current_timestamp s.frames
      (s.frames.foldl scanStep ⟨none, 0, s.current_timestamp⟩) := by
  have h := scan_go s.current_timestamp s.frames [] ⟨none, 0, s.current_timestamp⟩
    (fun p hp => ?_) (accGood_init s.current_timestamp)
  · simpa using h
  · have hlen := (hinv.hist_len p hp).1
    have hne : p.2.history ≠ [] := by
      intro hnil
      rw [hnil] at hlen
      simp at hlen
    refine ⟨hne, fun _ => ?_⟩
    exact hinv.hist_ts p hp _ (headD_mem hne 0)

theorem rinv_evict {n k : Nat} {s : LRUK} (hinv : RInv n k s) :
    RInv n k (s.evict).2 := by
  unfold LRUK.evict
  by_cases h0 : s.curr_size = 0
  · rw [if_pos h0]
    exact hinv
  · rw [if_neg h0]
    dsimp only
    cases hv : (s.frames.foldl scanStep ⟨none, 0, s.current_timestamp⟩).victim with
    | none =>
        exact hinv
    | some vid =>
        dsimp only
        obtain ⟨fr, hfrmem, hfrev, _, _, _⟩ := (evict_scan_good hinv).2 vid hv
        have hget := mem_getFrame? hinv.keys_nd hfrmem
        refine ⟨hinv.size_eq, hinv.k_eq,
          (keys_eraseFrame_sublist s.frames vid).nodup hinv.keys_nd,
          ?_, ?_, ?_, ?_, ?_⟩
        · intro p hp
          exact hinv.fid_lt p (mem_eraseFrame hp)
        · show s.curr_size - 1 = _
          dsimp only
          have heq := filter_length_eraseFrame (fun p => p.2.is_evictable) hget
          dsimp only at heq
          rw [hfrev] at heq
          simp only [if_true] at heq
          have hcurr := hinv.curr_eq
          omega
        · intro p hp
          exact hinv.hist_len p (mem_eraseFrame hp)
        · intro p hp
          exact hinv.hist_ts p (mem_eraseFrame hp)
        · intro p hp
          exact hinv.kd_cache p (mem_eraseFrame hp)

/-- Every reachable replacer state satisfies the invariant. -/
theorem rinv_of_reach {n k : Nat} (hk : 1 ≤ k) {s : LRUK} (h : RReach n k s) :
    RInv n k s := by
  induction h with
  | init => exact rinv_new n k
  | record h1 h2 ih => exact rinv_recordAccess hk ih h2
  | setEv h1 h2 ih => exact rinv_setEvictable ih h2
  | evict h1 ih => exact rinv_evict ih
  | remove h1 h2 ih => exact rinv_removeFrame ih h2

theorem sizeTMax_pos : 0 < sizeTMax := by decide

/-! ## Reachability of the concrete witness states -/

theorem wreach4 : RReach 7 2 wR4 := by
  have h1 : wR0.recordAccess 1 = .ok wR1 := by rfl
  have h2 : wR1.recordAccess 2 = .ok wR2 := by rfl
  have h3 : wR2.setEvictable 1 true = .ok wR3 := by rfl
  have h4 : wR3.setEvictable 2 true = .ok wR4 := by rfl
  exact .setEv (.setEv (.record (.record .init h1) h2) h3) h4

/-! ## The claims about the LRU-K replacer -/

/-- **C7** (replacer size invariant): in every state reachable by the public
replacer operations, `Size()` — i.e. `curr_size_` — equals the number of
tracked frames whose `is_evictable` flag is true. -/
theorem size_counts_evictable {n k : Nat} {s : LRUK} (hk : 1 ≤ k)
    (h : RReach n k s) :
    LRUK.size s = (s.frames.filter (fun p => p.2.is_evictable)).length :=
  (rinv_of_reach hk h).curr_eq

theorem size_counts_evictable_witness :
    LRUK.size wR4 = (wR4.frames.filter (fun p => p.2.is_evictable)).length :=
  size_counts_evictable (by decide) wreach4

/-- **C8** (frame-id range invariant): in every reachable replacer state,
every tracked frame id is below `replacer_size`; ids outside
`[0, replacer_size)` are never present in the frame map (frame ids are
naturals, so the lower bound holds by typing). -/
theorem tracked_ids_lt_replacer_size {n k : Nat} {s : LRUK} (hk : 1 ≤ k)
    (h : RReach n k s) : ∀ p ∈ s.frames, p.1 < s.replacer_size := by
  have hinv := rinv_of_reach hk h
  intro p hp
  rw [hinv.size_eq]
  exact hinv.fid_lt p hp

theorem tracked_ids_lt_replacer_size_witness :
    1 ≤ 2 ∧ ∀ p ∈ wR4.frames, p.1 < wR4.replacer_size :=
  ⟨by decide, tracked_ids_lt_replacer_size (by decide) wreach4⟩

/-- **C9** (`Remove` error contract): for every replacer state, `Remove` on
an untracked id (whatever its range) is a no-op returning no error; on a
tracked non-evictable frame it raises the not-evictable error and produces no
new state; on a tracked evictable frame it erases the record and decrements
`curr_size`. -/
theorem removeFrame_contract (s : LRUK) (fid : Nat) :
    (getFrame? s.frames fid = none → s.removeFrame fid = .ok s) ∧
    (∀ f, getFrame? s.frames fid = some f → f.is_evictable = false →
      s.removeFrame fid = .error "Cannot remove non-evictable frame") ∧
    (∀ f, getFrame? s.frames fid = some f → f.is_evictable = true →
      s.removeFrame fid =
        .ok { s with frames := eraseFrame s.frames fid,
                     curr_size := s.curr_size - 1 }) := by
  refine ⟨?_, ?_, ?_⟩
  · intro h
    unfold LRUK.removeFrame
    rw [h]
  · intro f h hev
    unfold LRUK.removeFrame
    rw [h]
    dsimp only
    rw [if_pos hev]
  · intro f h hev
    unfold LRUK.removeFrame
    rw [h]
    dsimp only
    rw [if_neg (by rw [hev]; simp)]

theorem removeFrame_contract_witness :
    wRS.removeFrame 7 = .ok wRS ∧
    wRS.removeFrame 1 = .error "Cannot remove non-evictable frame" ∧
    wRS.removeFrame 0 =
      .ok { wRS with frames := eraseFrame wRS.frames 0,
                     curr_size := wRS.curr_size - 1 } :=
  ⟨(removeFrame_contract wRS 7).1 rfl,
   (removeFrame_contract wRS 1).2.1 ⟨[1], false, sizeTMax⟩ rfl rfl,
   (removeFrame_contract wRS 0).2.2 ⟨[0], true, sizeTMax⟩ rfl rfl⟩

/-- **C10** (`Evict` succeeds exactly when an evictable frame exists): in
every reachable replacer state, `Evict` returns a frame id iff `curr_size`
is positive — the internal scan never fails to select a candidate when some
frame is evictable. -/
theorem evict_isSome_iff_size_pos {n k : Nat} {s : LRUK} (hk : 1 ≤ k)
    (h : RReach n k s) : ((LRUK.evict s).1).isSome ↔ 0 < s.curr_size := by
  have hinv := rinv_of_reach hk h
  unfold LRUK.evict
  by_cases h0 : s.curr_size = 0
  · rw [if_pos h0]
    simp [h0]
  · rw [if_neg h0]
    dsimp only
    cases hv : (s.frames.foldl scanStep ⟨none, 0, s.current_timestamp⟩).victim with
    | some vid =>
        simp only [Option.isSome_some, true_iff]
        omega
    | none =>
        exfalso
        obtain ⟨_, _, hall⟩ := (evict_scan_good hinv).1 hv
        have hnil : s.frames.filter (fun p => p.2.is_evictable) = [] := by
          rw [List.filter_eq_nil_iff]
          intro p hp
          rw [hall p hp]
          simp
        have hcurr := hinv.curr_eq
        rw [hnil] at hcurr
        simp at hcurr
        exact h0 hcurr

theorem evict_isSome_iff_size_pos_witness :
    ((LRUK.evict wR4).1).isSome ↔ 0 < wR4.curr_size :=
  evict_isSome_iff_size_pos (by decide) wreach4

/-- **C2** (evict victim selection): whenever `Evict` returns a frame id in a
reachable state, that frame is tracked and evictable, its backward
k-distance (in the specification's sense: infinite below `k` recorded
accesses, else `current_timestamp - history[|history| - k]`) is maximal among
the evictable frames at the time of the call, and among frames tied for that
k-distance it has the smallest oldest-recorded timestamp `history[0]`. -/
theorem evict_selects_max_kdistance {n k : Nat} {s : LRUK} {vid : Nat}
    (hk : 1 ≤ k) (h : RReach n k s) (hev : (LRUK.evict s).1 = some vid) :
    ∃ fr, getFrame? s.frames vid = some fr ∧ fr.is_evictable = true ∧
      ∀ p ∈ s.frames, p.2.is_evictable = true →
        kdLE (backwardKDistance s.current_timestamp k p.2)
             (backwardKDistance s.current_timestamp k fr) ∧
        (backwardKDistance s.current_timestamp k p.2 =
            backwardKDistance s.current_timestamp k fr →
          fr.history.headD 0 ≤ p.2.history.headD 0) := by
  have hinv := rinv_of_reach hk h
  unfold LRUK.evict at hev
  by_cases h0 : s.curr_size = 0
  · rw [if_pos h0] at hev
    simp at hev
  · rw [if_neg h0] at hev
    dsimp only at hev
    cases hv : (s.frames.foldl scanStep ⟨none, 0, s.current_timestamp⟩).victim with
    | none =>
        rw [hv] at hev
        simp at hev
    | some w =>
        rw [hv] at hev
        dsimp only at hev
        have hw : w = vid := Option.some.inj hev
        subst hw
        obtain ⟨fr, hfrmem, hfrev, _, _, hall⟩ := (evict_scan_good hinv).2 w hv
        refine ⟨fr, mem_getFrame? hinv.keys_nd hfrmem, hfrev, ?_⟩
        intro p hp hpev
        have hq := hall p hp hpev
        have kdp := hinv.kd_cache p hp
        have kdf := hinv.kd_cache (w, fr) hfrmem
        have lenp := hinv.hist_len p hp
        have lenf := hinv.hist_len (w, fr) hfrmem
        dsimp only at kdf lenf
        by_cases hfl : fr.history.length < k
        · rw [if_pos hfl] at kdf
          by_cases hpl : p.2.history.length < k
          · rw [if_pos hpl] at kdp
            unfold backwardKDistance
            rw [if_pos hfl, if_pos hpl]
            refine ⟨trivial, fun _ => ?_⟩
            exact hq.2 (by rw [kdp, kdf])
          · rw [if_neg hpl] at kdp
            unfold backwardKDistance
            rw [if_pos hfl, if_neg hpl]
            exact ⟨trivial, fun habs => absurd habs (by simp)⟩
        · rw [if_neg hfl] at kdf
          by_cases hpl : p.2.history.length < k
          · rw [if_pos hpl] at kdp
            exfalso
            have h1 := hq.1
            rw [kdp, kdf] at h1
            have := sizeTMax_pos
            omega
          · rw [if_neg hpl] at kdp
            have htie : fr.history.headD 0 ≤ p.2.history.headD 0 :=
              hq.2 (by rw [kdp, kdf])
            unfold backwardKDistance
            rw [if_neg hfl, if_neg hpl]
            have hfk : fr.history.length - k = 0 := by omega
            have hpk : p.2.history.length - k = 0 := by omega
            rw [hfk, hpk, getD_zero_eq_headD, getD_zero_eq_headD]
            refine ⟨?_, fun _ => htie⟩
            simp only [kdLE]
            exact Nat.sub_le_sub_left htie s.current_timestamp

theorem evict_selects_max_kdistance_witness :
    ∃ fr, getFrame? wR4.frames 1 = some fr ∧ fr.is_evictable = true ∧
      ∀ p ∈ wR4.frames, p.2.is_evictable = true →
        kdLE (backwardKDistance wR4.current_timestamp 2 p.2)
             (backwardKDistance wR4.current_timestamp 2 fr) ∧
        (backwardKDistance wR4.current_timestamp 2 p.2 =
            backwardKDistance wR4.current_timestamp 2 fr →
          fr.history.headD 0 ≤ p.2.history.headD 0) :=
  evict_selects_max_kdistance (by decide) wreach4 rfl

/-! ## Generic list lemmas for the hash-table proofs -/

theorem getD_set_self {α : Type} (l : List α) (i : Nat) (a d : α)
    (h : i < l.length) : (l.set i a).getD i d = a := by
  induction l generalizing i with
  | nil => simp at h
  | cons x xs ih =>
      cases i with
      | zero => rfl
      | succ j => exact ih j (by simpa using h)

theorem getD_set_ne {α : Type} (l : List α) (i j : Nat) (a d : α)
    (h : i ≠ j) : (l.set i a).getD j d = l.getD j d := by
  induction l generalizing i j with
  | nil => rfl
  | cons x xs ih =>
      cases i with
      | zero =>
          cases j with
          | zero => exact absurd rfl h
          | succ j2 => rfl
      | succ i2 =>
          cases j with
          | zero => rfl
          | succ j2 => exact ih i2 j2 (by omega)

theorem getD_append_lt {α : Type} (l1 l2 : List α) (i : Nat) (d : α)
    (h : i < l1.length) : (l1 ++ l2).getD i d = l1.getD i d := by
  induction l1 generalizing i with
  | nil => simp at h
  | cons x xs ih =>
      cases i with
      | zero => rfl
      | succ j => exact ih j (by simpa using h)

theorem getD_append_ge {α : Type} (l1 l2 : List α) (i : Nat) (d : α)
    (h : l1.length ≤ i) : (l1 ++ l2).getD i d = l2.getD (i - l1.length) d := by
  induction l1 generalizing i with
  | nil => simp
  | cons x xs ih =>
      cases i with
      | zero => simp at h
      | succ j =>
          rw [List.length_cons, Nat.succ_sub_succ]
          exact ih j (by simpa using h)

theorem getD_mem {α : Type} (l : List α) (i : Nat) (d : α)
    (h : i < l.length) : l.getD i d ∈ l := by
  induction l generalizing i with
  | nil => simp at h
  | cons x xs ih =>
      cases i with
      | zero => exact List.mem_cons_self _ _
      | succ j => exact List.mem_cons_of_mem _ (ih j (by simpa using h))

theorem rangeMap_getD (n : Nat) (f : Nat → Nat) (i : Nat) (hi : i < n) :
    ((List.range n).map f).getD i 0 = f i := by
  rw [List.getD_eq_getElem?_getD, List.getElem?_map f, List.getElem?_range hi]
  rfl

theorem rangeMap_length (n : Nat) (f : Nat → Nat) :
    ((List.range n).map f).length = n := by
  rw [List.length_map, List.length_range]

theorem flatten_set_perm {α β : Type} (f : α → List β) :
    ∀ (l : List α) (i : Nat) (a : α) (h : i < l.length),
      List.Perm (((l.set i a).map f).flatten ++ f (l.get ⟨i, h⟩))
        ((l.map f).flatten ++ f a)
  | [], i, a, h => by simp at h
  | x :: xs, 0, a, h => by
      simp only [List.set_cons_zero, List.map_cons, List.flatten_cons,
        List.get]
      have p1 : List.Perm ((f a ++ (xs.map f).flatten) ++ f x)
          (f a ++ (f x ++ (xs.map f).flatten)) := by
        rw [List.append_assoc]
        exact List.Perm.append_left _ List.perm_append_comm
      exact p1.trans List.perm_append_comm
  | x :: xs, i + 1, a, h => by
      simp only [List.set_cons_succ, List.map_cons, List.flatten_cons,
        List.get]
      rw [List.append_assoc, List.append_assoc]
      exact List.Perm.append_left _ (flatten_set_perm f xs i a (by simpa using h))

theorem find?_key_eq_none {K V : Type} [DecidableEq K] {l : List (K × V)}
    {k : K} (h : k ∉ l.map Prod.fst) :
    l.find? (fun kv => kv.1 == k) = none := by
  induction l with
  | nil => rfl
  | cons kv rest ih =>
      rw [List.map_cons, List.mem_cons] at h
      push_neg at h
      have h1 : (kv.1 == k) = false := by
        simp only [beq_eq_false_iff_ne, ne_eq]
        intro he
        exact h.1 he.symm
      rw [List.find?_cons_of_neg _ (by rw [h1]; exact Bool.false_ne_true)]
      exact ih h.2

theorem find?_key_isSome {K V : Type} [DecidableEq K] (l : List (K × V))
    (k : K) :
    (l.find? (fun kv => kv.1 == k)).isSome ↔ k ∈ l.map Prod.fst := by
  induction l with
  | nil => simp
  | cons kv rest ih =>
      by_cases hk : kv.1 = k
      · rw [List.find?_cons_of_pos _ (by simp [hk])]
        simp [hk]
      · rw [List.find?_cons_of_neg _ (by simp [hk])]
        rw [List.map_cons, List.mem_cons, ih]
        constructor
        · exact Or.inr
        · rintro (h | h)
          · exact absurd h.symm hk
          · exact h

theorem find?_append_key_self {K V : Type} [DecidableEq K]
    {l : List (K × V)} {k : K} (h : k ∉ l.map Prod.fst) (v : V) :
    ((l ++ [(k, v)]).find? (fun kv => kv.1 == k)).map (fun kv => kv.2) =
      some v := by
  induction l with
  | nil => simp
  | cons kv rest ih =>
      rw [List.map_cons, List.mem_cons] at h
      push_neg at h
      rw [List.cons_append,
        List.find?_cons_of_neg _ (by simp; intro he; exact h.1 he.symm)]
      exact ih h.2

theorem find?_append_key_other {K V : Type} [DecidableEq K]
    {l : List (K × V)} {k k3 : K} (hne : k3 ≠ k) (v : V) :
    (l ++ [(k, v)]).find? (fun kv => kv.1 == k3) =
      l.find? (fun kv => kv.1 == k3) := by
  induction l with
  | nil =>
      simp only [List.nil_append, List.find?_nil]
      rw [List.find?_cons_of_neg _ (by simp; exact fun he => hne he.symm)]
      rfl
  | cons kv rest ih =>
      by_cases hk : kv.1 = k3
      · rw [List.cons_append, List.find?_cons_of_pos _ (by simp [hk]),
          List.find?_cons_of_pos _ (by simp [hk])]
      · rw [List.cons_append, List.find?_cons_of_neg _ (by simp [hk]),
          List.find?_cons_of_neg _ (by simp [hk])]
        exact ih

theorem find?_filter_key {K V : Type} [DecidableEq K]
    {l : List (K × V)} {k : K} (p : K × V → Bool)
    (hall : ∀ kv ∈ l, kv.1 = k → p kv = true) :
    (l.filter p).find? (fun kv => kv.1 == k) =
      l.find? (fun kv => kv.1 == k) := by
  induction l with
  | nil => rfl
  | cons kv rest ih =>
      have ih2 := ih (fun kv2 h2 => hall kv2 (List.mem_cons_of_mem _ h2))
      by_cases hk : kv.1 = k
      · have hp := hall kv (List.mem_cons_self _ _) hk
        rw [List.filter_cons_of_pos hp,
          List.find?_cons_of_pos _ (by simp [hk]),
          List.find?_cons_of_pos _ (by simp [hk])]
      · rw [List.find?_cons_of_neg _ (by simp [hk])]
        cases hp : p kv with
        | true =>
            rw [List.filter_cons_of_pos hp,
              List.find?_cons_of_neg _ (by simp [hk])]
            exact ih2
        | false =>
            rw [List.filter_cons_of_neg (by rw [hp]; exact Bool.false_ne_true)]
            exact ih2

/-! ## Lemmas about `replaceFirstValue` and `eraseFirstKey` -/

theorem replaceFirstValue_eq_none {K V : Type} [DecidableEq K] :
    ∀ {l : List (K × V)} {k : K} {v : V},
      replaceFirstValue l k v = none ↔ k ∉ l.map Prod.fst
  | [], k, v => by simp [replaceFirstValue]
  | (k2, v2) :: rest, k, v => by
      rw [replaceFirstValue, List.map_cons, List.mem_cons]
      by_cases hk : k2 = k
      · simp [hk]
      · rw [if_neg hk, Option.map_eq_none', replaceFirstValue_eq_none]
        constructor
        · intro h hmem
          rcases hmem with h2 | h2
          · exact hk h2.symm
          · exact h h2
        · intro h h2
          exact h (Or.inr h2)

theorem replaceFirstValue_some_keys {K V : Type} [DecidableEq K] :
    ∀ {l l2 : List (K × V)} {k : K} {v : V},
      replaceFirstValue l k v = some l2 → l2.map Prod.fst = l.map Prod.fst
  | [], l2, k, v => by simp [replaceFirstValue]
  | (k2, v2) :: rest, l2, k, v => by
      rw [replaceFirstValue]
      by_cases hk : k2 = k
      · rw [if_pos hk]
        intro h
        injection h with h
        rw [← h]
        rfl
      · rw [if_neg hk]
        intro h
        cases hr : replaceFirstValue rest k v with
        | none => rw [hr] at h; simp at h
        | some l3 =>
            rw [hr, Option.map_some'] at h
            injection h with h
            rw [← h, List.map_cons, List.map_cons,
              replaceFirstValue_some_keys hr]

theorem replaceFirstValue_some_length {K V : Type} [DecidableEq K] :
    ∀ {l l2 : List (K × V)} {k : K} {v : V},
      replaceFirstValue l k v = some l2 → l2.length = l.length
  | [], l2, k, v => by simp [replaceFirstValue]
  | (k2, v2) :: rest, l2, k, v => by
      rw [replaceFirstValue]
      by_cases hk : k2 = k
      · rw [if_pos hk]
        intro h
        injection h with h
        rw [← h]
        rfl
      · rw [if_neg hk]
        intro h
        cases hr : replaceFirstValue rest k v with
        | none => rw [hr] at h; simp at h
        | some l3 =>
            rw [hr, Option.map_some'] at h
            injection h with h
            rw [← h, List.length_cons, List.length_cons,
              replaceFirstValue_some_length hr]

theorem replaceFirstValue_find_self {K V : Type} [DecidableEq K] :
    ∀ {l l2 : List (K × V)} {k : K} {v : V},
      replaceFirstValue l k v = some l2 →
      (l2.find? (fun kv => kv.1 == k)).map (fun kv => kv.2) = some v
  | [], l2, k, v => by simp [replaceFirstValue]
  | (k2, v2) :: rest, l2, k, v => by
      rw [replaceFirstValue]
      by_cases hk : k2 = k
      · rw [if_pos hk]
        intro h
        injection h with h
        rw [← h, List.find?_cons_of_pos _ (by simp [hk])]
        rfl
      · rw [if_neg hk]
        intro h
        cases hr : replaceFirstValue rest k v with
        | none => rw [hr] at h; simp at h
        | some l3 =>
            rw [hr, Option.map_some'] at h
            injection h with h
            rw [← h, List.find?_cons_of_neg _ (by simp [hk])]
            exact replaceFirstValue_find_self hr

theorem replaceFirstValue_find_other {K V : Type} [DecidableEq K] :
    ∀ {l l2 : List (K × V)} {k : K} {v : V} (k3 : K), k3 ≠ k →
      replaceFirstValue l k v = some l2 →
      l2.find? (fun kv => kv.1 == k3) = l.find? (fun kv => kv.1 == k3)
  | [], l2, k, v, k3 => by simp [replaceFirstValue]
  | (k2, v2) :: rest, l2, k, v, k3 => by
      intro hne
      rw [replaceFirstValue]
      by_cases hk : k2 = k
      · rw [if_pos hk]
        intro h
        injection h with h
        have hk3 : ¬ k2 = k3 := by rw [hk]; exact fun he => hne he.symm
        rw [← h, List.find?_cons_of_neg _ (by simp [hk3]),
          List.find?_cons_of_neg _ (by simp [hk3])]
      · rw [if_neg hk]
        intro h
        cases hr : replaceFirstValue rest k v with
        | none => rw [hr] at h; simp at h
        | some l3 =>
            rw [hr, Option.map_some'] at h
            injection h with h
            by_cases hk3 : k2 = k3
            · rw [← h, List.find?_cons_of_pos _ (by simp [hk3]),
                List.find?_cons_of_pos _ (by simp [hk3])]
            · rw [← h, List.find?_cons_of_neg _ (by simp [hk3]),
                List.find?_cons_of_neg _ (by simp [hk3])]
              exact replaceFirstValue_find_other k3 hne hr

theorem eraseFirstKey_eq_none {K V : Type} [DecidableEq K] :
    ∀ {l : List (K × V)} {k : K},
      eraseFirstKey l k = none ↔ k ∉ l.map Prod.fst
  | [], k => by simp [eraseFirstKey]
  | (k2, v2) :: rest, k => by
      rw [eraseFirstKey, List.map_cons, List.mem_cons]
      by_cases hk : k2 = k
      · simp [hk]
      · rw [if_neg hk, Option.map_eq_none', eraseFirstKey_eq_none]
        constructor
        · intro h hmem
          rcases hmem with h2 | h2
          · exact hk h2.symm
          · exact h h2
        · intro h h2
          exact h (Or.inr h2)

theorem eraseFirstKey_mem {K V : Type} [DecidableEq K] :
    ∀ {l l2 : List (K × V)} {k : K},
      eraseFirstKey l k = some l2 → ∀ kv ∈ l2, kv ∈ l
  | [], l2, k => by simp [eraseFirstKey]
  | (k2, v2) :: rest, l2, k => by
      rw [eraseFirstKey]
      by_cases hk : k2 = k
      · rw [if_pos hk]
        intro h
        injection h with h
        rw [← h]
        intro kv hkv
        exact List.mem_cons_of_mem _ hkv
      · rw [if_neg hk]
        intro h
        cases hr : eraseFirstKey rest k with
        | none => rw [hr] at h; simp at h
        | some l3 =>
            rw [hr, Option.map_some'] at h
            injection h with h
            rw [← h]
            intro kv hkv
            rcases List.mem_cons.1 hkv with hkv | hkv
            · rw [hkv]; exact List.mem_cons_self _ _
            · exact List.mem_cons_of_mem _ (eraseFirstKey_mem hr kv hkv)

theorem eraseFirstKey_keys_sublist {K V : Type} [DecidableEq K] :
    ∀ {l l2 : List (K × V)} {k : K}, eraseFirstKey l k = some l2 →
      List.Sublist (l2.map Prod.fst) (l.map Prod.fst)
  | [], l2, k => by simp [eraseFirstKey]
  | (k2, v2) :: rest, l2, k => by
      rw [eraseFirstKey]
      by_cases hk : k2 = k
      · rw [if_pos hk]
        intro h
        injection h with h
        rw [← h, List.map_cons]
        exact List.sublist_cons_self _ _
      · rw [if_neg hk]
        intro h
        cases hr : eraseFirstKey rest k with
        | none => rw [hr] at h; simp at h
        | some l3 =>
            rw [hr, Option.map_some'] at h
            injection h with h
            rw [← h, List.map_cons, List.map_cons]
            exact List.Sublist.cons₂ _ (eraseFirstKey_keys_sublist hr)

theorem eraseFirstKey_length {K V : Type} [DecidableEq K] :
    ∀ {l l2 : List (K × V)} {k : K}, eraseFirstKey l k = some l2 →
      l2.length + 1 = l.length
  | [], l2, k => by simp [eraseFirstKey]
  | (k2, v2) :: rest, l2, k => by
      rw [eraseFirstKey]
      by_cases hk : k2 = k
      · rw [if_pos hk]
        intro h
        injection h with h
        rw [← h]
        rfl
      · rw [if_neg hk]
        intro h
        cases hr : eraseFirstKey rest k with
        | none => rw [hr] at h; simp at h
        | some l3 =>
            rw [hr, Option.map_some'] at h
            injection h with h
            rw [← h, List.length_cons, List.length_cons,
              eraseFirstKey_length hr]

theorem eraseFirstKey_find_self {K V : Type} [DecidableEq K] :
    ∀ {l l2 : List (K × V)} {k : K}, (l.map Prod.fst).Nodup →
      eraseFirstKey l k = some l2 →
      l2.find? (fun kv => kv.1 == k) = none
  | [], l2, k => by simp [eraseFirstKey]
  | (k2, v2) :: rest, l2, k => by
      intro hnd
      rw [List.map_cons, List.nodup_cons] at hnd
      rw [eraseFirstKey]
      by_cases hk : k2 = k
      · rw [if_pos hk]
        intro h
        injection h with h
        rw [← h]
        exact find?_key_eq_none (hk ▸ hnd.1)
      · rw [if_neg hk]
        intro h
        cases hr : eraseFirstKey rest k with
        | none => rw [hr] at h; simp at h
        | some l3 =>
            rw [hr, Option.map_some'] at h
            injection h with h
            rw [← h, List.find?_cons_of_neg _ (by simp [hk])]
            exact eraseFirstKey_find_self hnd.2 hr

theorem eraseFirstKey_find_other {K V : Type} [DecidableEq K] :
    ∀ {l l2 : List (K × V)} {k : K} (k3 : K), k3 ≠ k →
      eraseFirstKey l k = some l2 →
      l2.find? (fun kv => kv.1 == k3) = l.find? (fun kv => kv.1 == k3)
  | [], l2, k, k3 => by simp [eraseFirstKey]
  | (k2, v2) :: rest, l2, k, k3 => by
      intro hne
      rw [eraseFirstKey]
      by_cases hk : k2 = k
      · rw [if_pos hk]
        intro h
        injection h with h
        have hk3 : ¬ k2 = k3 := by rw [hk]; exact fun he => hne he.symm
        rw [← h, List.find?_cons_of_neg _ (by simp [hk3])]
      · rw [if_neg hk]
        intro h
        cases hr : eraseFirstKey rest k with
        | none => rw [hr] at h; simp at h
        | some l3 =>
            rw [hr, Option.map_some'] at h
            injection h with h
            by_cases hk3 : k2 = k3
            · rw [← h, List.find?_cons_of_pos _ (by simp [hk3]),
                List.find?_cons_of_pos _ (by simp [hk3])]
            · rw [← h, List.find?_cons_of_neg _ (by simp [hk3]),
                List.find?_cons_of_neg _ (by simp [hk3])]
              exact eraseFirstKey_find_other k3 hne hr

/-! ## Bucket operation characterizations -/

theorem bucket_insert_overwrite {K V : Type} [DecidableEq K]
    {b : Bucket K V} {k : K} {v : V} {l2 : List (K × V)}
    (h : replaceFirstValue b.list k v = some l2) :
    b.insert k v = ({ b with list := l2 }, true) := by
  unfold Bucket.insert
  cases hf : b.isFull <;> simp [hf, h]

theorem bucket_insert_append {K V : Type} [DecidableEq K]
    {b : Bucket K V} {k : K} {v : V}
    (hno : replaceFirstValue b.list k v = none) (hfull : b.isFull = false) :
    b.insert k v = ({ b with list := b.list ++ [(k, v)] }, true) := by
  unfold Bucket.insert
  simp [hfull, hno]

theorem bucket_insert_full_none {K V : Type} [DecidableEq K]
    {b : Bucket K V} {k : K} {v : V}
    (hno : replaceFirstValue b.list k v = none) (hfull : b.isFull = true) :
    b.insert k v = (b, false) := by
  unfold Bucket.insert
  simp [hfull, hno]

theorem bucket_insert_false {K V : Type} [DecidableEq K]
    {b : Bucket K V} {k : K} {v : V} (h : (b.insert k v).2 = false) :
    replaceFirstValue b.list k v = none ∧ b.isFull = true := by
  unfold Bucket.insert at h
  cases hf : b.isFull <;> rw [hf] at h <;>
    cases hr : replaceFirstValue b.list k v <;> rw [hr] at h <;> simp_all

/-! ## Arithmetic of power-of-two residues -/

theorem two_pow_pos (d : Nat) : 0 < 2 ^ d := pow_pos (by omega) d

theorem mod_pow_le (a : Nat) {d g : Nat} (h : d ≤ g) :
    a % 2 ^ g % 2 ^ d = a % 2 ^ d :=
  Nat.mod_mod_of_dvd a (pow_dvd_pow 2 h)

theorem mod_two_pow_split (i d : Nat) :
    i % 2 ^ (d + 1) = i % 2 ^ d + 2 ^ d * (i / 2 ^ d % 2) := by
  rw [pow_succ]
  exact Nat.mod_mul

theorem mod_pow_succ_zero {i r d : Nat} (hr : r < 2 ^ d) :
    i % 2 ^ (d + 1) = r ↔ i % 2 ^ d = r ∧ i / 2 ^ d % 2 = 0 := by
  have hsplit := mod_two_pow_split i d
  have h1 : i % 2 ^ d < 2 ^ d := Nat.mod_lt _ (two_pow_pos d)
  have hb : i / 2 ^ d % 2 = 0 ∨ i / 2 ^ d % 2 = 1 := by omega
  rcases hb with hb | hb <;> rw [hb] at hsplit <;>
    simp only [Nat.mul_zero, Nat.mul_one, Nat.add_zero] at hsplit <;>
    constructor <;> intro h2 <;> omega

theorem mod_pow_succ_one {i r d : Nat} (_hr : r < 2 ^ d) :
    i % 2 ^ (d + 1) = r + 2 ^ d ↔ i % 2 ^ d = r ∧ i / 2 ^ d % 2 = 1 := by
  have hsplit := mod_two_pow_split i d
  have h1 : i % 2 ^ d < 2 ^ d := Nat.mod_lt _ (two_pow_pos d)
  have hb : i / 2 ^ d % 2 = 0 ∨ i / 2 ^ d % 2 = 1 := by omega
  rcases hb with hb | hb <;> rw [hb] at hsplit <;>
    simp only [Nat.mul_zero, Nat.mul_one, Nat.add_zero] at hsplit <;>
    constructor <;> intro h2 <;> omega

theorem mod_pow_eq_of_mod_pow_succ {i r d : Nat} (hr : r < 2 ^ d)
    (h : i % 2 ^ (d + 1) = r) : i % 2 ^ d = r :=
  ((mod_pow_succ_zero hr).1 h).1

/-! ## Lemmas about `dirAfterSplit` -/

theorem dirAfterSplit_length (dir : List Nat) (ld dirIndex bid newBid : Nat) :
    (dirAfterSplit dir ld dirIndex bid newBid).length = dir.length := by
  unfold dirAfterSplit
  exact rangeMap_length _ _

theorem dirAfterSplit_getD (dir : List Nat) (ld dirIndex bid newBid : Nat)
    (i : Nat) (hi : i < dir.length) :
    (dirAfterSplit dir ld dirIndex bid newBid).getD i 0 =
      if i % 2 ^ ld = dirIndex ∧ dir.getD i 0 = bid then
        (if i / 2 ^ ld % 2 = 0 then bid else newBid)
      else dir.getD i 0 := by
  unfold dirAfterSplit
  exact rangeMap_getD _ _ i hi

/-! ## The characterization of `redistribute` -/

theorem redistribute_spec {K V : Type} [DecidableEq K] (iof : K → Nat)
    (dir : List Nat) (bid : Nat) :
    ∀ (items : List (K × V)) (nb : Bucket K V),
      (∀ kv ∈ items, kv.1 ∉ nb.list.map Prod.fst) →
      (items.map Prod.fst).Nodup →
      nb.list.length + items.length ≤ nb.size →
      redistribute iof dir bid items nb =
        (items.filter (fun kv => dir.getD (iof kv.1) 0 == bid),
         { nb with list := nb.list ++
            items.filter (fun kv => !(dir.getD (iof kv.1) 0 == bid)) })
  | [], nb, _, _, _ => by
      simp [redistribute]
  | (k, v) :: rest, nb, hdisj, hnd, hcap => by
      rw [List.map_cons, List.nodup_cons] at hnd
      rw [redistribute]
      by_cases hmove : dir.getD (iof k) 0 ≠ bid
      · rw [if_pos hmove]
        have hkey : replaceFirstValue nb.list k v = none :=
          replaceFirstValue_eq_none.2 (hdisj (k, v) (List.mem_cons_self _ _))
        have hfull : nb.isFull = false := by
          unfold Bucket.isFull
          rw [List.length_cons] at hcap
          simp only [beq_eq_false_iff_ne, ne_eq]
          omega
        have hins := bucket_insert_append hkey hfull
        rw [hins]
        have ih := redistribute_spec iof dir bid rest
          { nb with list := nb.list ++ [(k, v)] }
          (by
            intro kv hkv
            dsimp only
            rw [List.map_append, List.mem_append]
            push_neg
            refine ⟨hdisj kv (List.mem_cons_of_mem _ hkv), ?_⟩
            simp only [List.map_cons, List.map_nil, List.mem_singleton]
            intro he
            exact hnd.1 (he ▸ List.mem_map.2 ⟨kv, hkv, rfl⟩)
          )
          hnd.2
          (by
            dsimp only
            rw [List.length_append, List.length_cons] at *
            simp only [List.length_cons, List.length_nil] at *
            omega
          )
        rw [ih]
        have hb2 : (dir.getD (iof k) 0 == bid) = false := by
          simp only [beq_eq_false_iff_ne, ne_eq]
          exact hmove
        rw [List.getD_eq_getElem?_getD] at hmove
        simp [List.filter_cons, hb2, hmove]
      · rw [if_neg hmove]
        push_neg at hmove
        dsimp only
        rw [redistribute_spec iof dir bid rest nb
          (fun kv hkv => hdisj kv (List.mem_cons_of_mem _ hkv)) hnd.2
          (by rw [List.length_cons] at hcap; omega)]
        have hb2 : (dir.getD (iof k) 0 == bid) = true := by
          simp only [beq_iff_eq]
          exact hmove
        rw [List.getD_eq_getElem?_getD] at hmove
        simp [List.filter_cons, hb2, hmove]

/-! ## The directory-doubling step -/

theorem doubled_dir_getD {dir : List Nat} {gd : Nat}
    (hlen : dir.length = 2 ^ gd) (a : Nat) :
    (dir ++ dir).getD (a % 2 ^ (gd + 1)) 0 = dir.getD (a % 2 ^ gd) 0 := by
  have h1 : a % 2 ^ (gd + 1) < 2 ^ (gd + 1) := Nat.mod_lt _ (two_pow_pos _)
  have h2 : (a % 2 ^ (gd + 1)) % 2 ^ gd = a % 2 ^ gd := mod_pow_le a (by omega)
  by_cases hlt : a % 2 ^ (gd + 1) < 2 ^ gd
  · rw [getD_append_lt _ _ _ _ (by rw [hlen]; exact hlt)]
    congr 1
    rw [← h2, Nat.mod_eq_of_lt hlt]
  · push_neg at hlt
    rw [getD_append_ge _ _ _ _ (by rw [hlen]; exact hlt)]
    have h3 : a % 2 ^ (gd + 1) - 2 ^ gd < 2 ^ gd := by
      rw [pow_succ] at h1
      omega
    have h4 : (a % 2 ^ (gd + 1)) % 2 ^ gd = a % 2 ^ (gd + 1) - 2 ^ gd := by
      rw [Nat.mod_eq_sub_mod hlt, Nat.mod_eq_of_lt h3]
    congr 1
    rw [hlen]
    omega

theorem maybeDouble_spec {K V : Type} [DecidableEq K] {hash : K → Nat}
    {s : HT K V} (hinv : HInv hash s) (bid : Nat)
    (hbid : bid < s.buckets.length) :
    HInv hash (maybeDouble s bid) ∧
    (maybeDouble s bid).buckets = s.buckets ∧
    (maybeDouble s bid).bucket_size = s.bucket_size ∧
    (∀ k2, HT.find hash (maybeDouble s bid) k2 = HT.find hash s k2) ∧
    (s.buckets.getD bid default).depth < (maybeDouble s bid).global_depth ∧
    (∀ j, j < s.dir.length → (maybeDouble s bid).dir.getD j 0 = s.dir.getD j 0) ∧
    s.global_depth ≤ (maybeDouble s bid).global_depth ∧
    (∀ a : Nat,
      (maybeDouble s bid).dir.getD (a % 2 ^ (maybeDouble s bid).global_depth) 0
        = s.dir.getD (a % 2 ^ s.global_depth) 0) := by
  unfold maybeDouble
  by_cases hd : (s.buckets.getD bid default).depth = s.global_depth
  · rw [if_pos hd]
    have hslot : ∀ a : Nat,
        (s.dir ++ s.dir).getD (a % 2 ^ (s.global_depth + 1)) 0
          = s.dir.getD (a % 2 ^ s.global_depth) 0 :=
      doubled_dir_getD hinv.dlen
    have hdlen2 : (s.dir ++ s.dir).length = 2 ^ (s.global_depth + 1) := by
      rw [List.length_append, hinv.dlen, pow_succ]
      omega
    refine ⟨⟨hdlen2, hinv.nbuckets, ?_, hinv.bsize, hinv.cap, ?_, hinv.uniq,
      ?_, ?_⟩, rfl, rfl, ?_, by
        show (s.buckets.getD bid default).depth < s.global_depth + 1
        rw [hd]
        omega, ?_, Nat.le_succ _, hslot⟩
    · intro i hi
      by_cases hlt : i < s.dir.length
      · rw [getD_append_lt _ _ _ _ hlt]
        exact hinv.dval i hlt
      · push_neg at hlt
        rw [getD_append_ge _ _ _ _ hlt]
        refine hinv.dval _ ?_
        rw [List.length_append] at hi
        omega
    · intro b hb
      show b.depth ≤ s.global_depth + 1
      exact le_trans (hinv.depth_le b hb) (by omega)
    · intro bid2 hbid2
      obtain ⟨r, hr, hiff⟩ := hinv.aliasing bid2 hbid2
      refine ⟨r, hr, ?_⟩
      intro i hi
      by_cases hlt : i < s.dir.length
      · rw [getD_append_lt _ _ _ _ hlt]
        exact hiff i hlt
      · push_neg at hlt
        rw [getD_append_ge _ _ _ _ hlt]
        rw [List.length_append] at hi
        have hi2 : i - s.dir.length < s.dir.length := by omega
        rw [hiff _ hi2]
        have hd2 : (s.buckets.getD bid2 default).depth ≤ s.global_depth :=
          hinv.depth_le _ (getD_mem _ _ _ hbid2)
        have hlen2 : s.dir.length =
            2 ^ (s.buckets.getD bid2 default).depth *
              2 ^ (s.global_depth - (s.buckets.getD bid2 default).depth) := by
          rw [hinv.dlen, ← pow_add]
          congr 1
          omega
        have hmod : ∀ x : Nat,
            (x + s.dir.length) % 2 ^ (s.buckets.getD bid2 default).depth
              = x % 2 ^ (s.buckets.getD bid2 default).depth := by
          intro x
          rw [hlen2]
          exact Nat.add_mul_mod_self_left _ _ _
        have hi3 : i % 2 ^ (s.buckets.getD bid2 default).depth
            = (i - s.dir.length) % 2 ^ (s.buckets.getD bid2 default).depth := by
          have h5 := hmod (i - s.dir.length)
          rw [show i - s.dir.length + s.dir.length = i by omega] at h5
          exact h5
        rw [hi3]
    · intro bid2 hbid2 kv hkv
      show (s.dir ++ s.dir).getD (hash kv.1 % 2 ^ (s.global_depth + 1)) 0 = bid2
      rw [hslot]
      exact hinv.contents bid2 hbid2 kv hkv
    · intro k2
      show (s.buckets.getD
        ((s.dir ++ s.dir).getD (hash k2 % 2 ^ (s.global_depth + 1)) 0)
          default).find k2 = _
      rw [hslot]
      rfl
    · intro j hj
      exact getD_append_lt _ _ _ _ hj
  · rw [if_neg hd]
    have hlt : (s.buckets.getD bid default).depth < s.global_depth :=
      lt_of_le_of_ne (hinv.depth_le _ (getD_mem _ _ _ hbid)) hd
    exact ⟨hinv, rfl, rfl, fun k2 => rfl, hlt, fun j hj => rfl, le_refl _,
      fun a => rfl⟩

/-! ## The split step: invariant and find preservation -/

theorem getD_eq_get {α : Type} (l : List α) (i : Nat) (d : α)
    (h : i < l.length) : l.getD i d = l.get ⟨i, h⟩ := by
  induction l generalizing i with
  | nil => simp at h
  | cons x xs ih =>
      cases i with
      | zero => rfl
      | succ j => exact ih j (by simpa using h)

theorem mem_set_elim {α : Type} {l : List α} {i : Nat} {a x : α}
    (h : x ∈ l.set i a) : x = a ∨ x ∈ l := by
  rcases List.mem_or_eq_of_mem_set h with h | h
  · exact Or.inr h
  · exact Or.inl h

theorem splitCoreFn_spec {K V : Type} [DecidableEq K] {hash : K → Nat}
    {t : HT K V} (hinv : HInv hash t) {index bid : Nat}
    (hbid : bid < t.buckets.length)
    (hld : (t.buckets.getD bid default).depth < t.global_depth)
    (hidxlt : index < t.dir.length)
    (hdirx : t.dir.getD index 0 = bid) :
    HInv hash (splitCoreFn hash t index bid) ∧
    (∀ k2, HT.find hash (splitCoreFn hash t index bid) k2
      = HT.find hash t k2) ∧
    List.Perm (keysList (splitCoreFn hash t index bid)) (keysList t) ∧
    (∀ k2 : K, hash k2 % 2 ^ (t.buckets.getD bid default).depth =
        index % 2 ^ (t.buckets.getD bid default).depth →
      depthAt hash (splitCoreFn hash t index bid) k2 =
        (t.buckets.getD bid default).depth + 1) := by
  obtain ⟨r, hr, hiff⟩ := hinv.aliasing bid hbid
  have hb_mem : t.buckets.getD bid default ∈ t.buckets := getD_mem _ _ _ hbid
  have hrIdx : index % 2 ^ (t.buckets.getD bid default).depth = r :=
    (hiff index hidxlt).1 hdirx
  have hcapb : (t.buckets.getD bid default).list.length ≤ t.bucket_size :=
    hinv.cap _ hb_mem
  have hdlen := hinv.dlen
  have hsplit : splitCoreFn hash t index bid =
      { global_depth := t.global_depth,
        dir := dirAfterSplit t.dir (t.buckets.getD bid default).depth
          (index % 2 ^ (t.buckets.getD bid default).depth) bid
          t.buckets.length,
        buckets := (t.buckets.set bid
          { t.buckets.getD bid default with
            depth := (t.buckets.getD bid default).depth + 1,
            list := (t.buckets.getD bid default).list.filter
              (fun kv => (dirAfterSplit t.dir
                (t.buckets.getD bid default).depth
                (index % 2 ^ (t.buckets.getD bid default).depth) bid
                t.buckets.length).getD (hash kv.1 % 2 ^ t.global_depth) 0
                  == bid) }) ++
          [⟨(t.buckets.getD bid default).list.filter
              (fun kv => !((dirAfterSplit t.dir
                (t.buckets.getD bid default).depth
                (index % 2 ^ (t.buckets.getD bid default).depth) bid
                t.buckets.length).getD (hash kv.1 % 2 ^ t.global_depth) 0
                  == bid)),
            t.bucket_size, (t.buckets.getD bid default).depth + 1⟩],
        bucket_size := t.bucket_size, num_buckets := t.num_buckets + 1 } := by
    unfold splitCoreFn
    dsimp only
    rw [redistribute_spec _ _ _ _ _ (by simp) (hinv.uniq _ hb_mem)
      (by simpa using hcapb)]
    rw [List.nil_append]
  rw [hsplit]
  set ld := (t.buckets.getD bid default).depth with hlddef
  set newBid := t.buckets.length with hnewBiddef
  set dir2 := dirAfterSplit t.dir ld (index % 2 ^ ld) bid newBid with hdir2def
  set pred : K × V → Bool :=
    fun kv => dir2.getD (hash kv.1 % 2 ^ t.global_depth) 0 == bid with hpreddef
  set stay := (t.buckets.getD bid default).list.filter pred with hstaydef
  set move := (t.buckets.getD bid default).list.filter (fun kv => !(pred kv))
    with hmovedef
  set tgt2 : Bucket K V :=
    { t.buckets.getD bid default with depth := ld + 1, list := stay }
    with htgt2def
  set nbF : Bucket K V := ⟨move, t.bucket_size, ld + 1⟩ with hnbFdef
  set bks2 := (t.buckets.set bid tgt2) ++ [nbF] with hbks2def
  have hdir2len : dir2.length = t.dir.length := by
    rw [hdir2def]
    exact dirAfterSplit_length _ _ _ _ _
  have F1 : ∀ i, i < t.dir.length → dir2.getD i 0 =
      if t.dir.getD i 0 = bid then
        (if i / 2 ^ ld % 2 = 0 then bid else newBid)
      else t.dir.getD i 0 := by
    intro i hi
    rw [hdir2def, dirAfterSplit_getD _ _ _ _ _ i hi]
    by_cases ho : t.dir.getD i 0 = bid
    · rw [if_pos ho, if_pos ⟨by rw [hrIdx]; exact (hiff i hi).1 ho, ho⟩]
    · rw [if_neg ho, if_neg (fun hc => ho hc.2)]
  have F2 : ∀ i, i < t.dir.length →
      (dir2.getD i 0 = bid ↔ i % 2 ^ (ld + 1) = r) := by
    intro i hi
    rw [F1 i hi]
    by_cases ho : t.dir.getD i 0 = bid
    · rw [if_pos ho]
      have hires : i % 2 ^ ld = r := (hiff i hi).1 ho
      by_cases hbit : i / 2 ^ ld % 2 = 0
      · rw [if_pos hbit]
        exact ⟨fun _ => (mod_pow_succ_zero hr).2 ⟨hires, hbit⟩, fun _ => rfl⟩
      · rw [if_neg hbit]
        constructor
        · intro he
          rw [hnewBiddef] at he
          omega
        · intro hmod
          exact absurd ((mod_pow_succ_zero hr).1 hmod).2 hbit
    · rw [if_neg ho]
      constructor
      · intro he
        exact absurd he ho
      · intro hmod
        exact absurd ((hiff i hi).2 (mod_pow_eq_of_mod_pow_succ hr hmod)) ho
  have F3 : ∀ i, i < t.dir.length →
      (dir2.getD i 0 = newBid ↔ i % 2 ^ (ld + 1) = r + 2 ^ ld) := by
    intro i hi
    rw [F1 i hi]
    by_cases ho : t.dir.getD i 0 = bid
    · rw [if_pos ho]
      have hires : i % 2 ^ ld = r := (hiff i hi).1 ho
      by_cases hbit : i / 2 ^ ld % 2 = 0
      · rw [if_pos hbit]
        constructor
        · intro he
          rw [hnewBiddef] at he
          omega
        · intro hmod
          have := ((mod_pow_succ_one hr).1 hmod).2
          omega
      · rw [if_neg hbit]
        exact ⟨fun _ => (mod_pow_succ_one hr).2 ⟨hires, by omega⟩, fun _ => rfl⟩
    · rw [if_neg ho]
      constructor
      · intro he
        have := hinv.dval i hi
        rw [hnewBiddef] at he
        omega
      · intro hmod
        exact absurd ((hiff i hi).2 ((mod_pow_succ_one hr).1 hmod).1) ho
  have hsetlen : (t.buckets.set bid tgt2).length = t.buckets.length :=
    List.length_set _ _ _
  have hlen2 : bks2.length = t.buckets.length + 1 := by
    rw [hbks2def, List.length_append, hsetlen]
    rfl
  have hB1 : bks2.getD bid default = tgt2 := by
    rw [hbks2def, getD_append_lt _ _ _ _ (by rw [hsetlen]; exact hbid)]
    exact getD_set_self _ _ _ _ hbid
  have hB2 : bks2.getD newBid default = nbF := by
    rw [hbks2def, getD_append_ge _ _ _ _ (by rw [hsetlen, hnewBiddef])]
    rw [hsetlen, hnewBiddef]
    simp
  have hB3 : ∀ j, j < t.buckets.length → j ≠ bid →
      bks2.getD j default = t.buckets.getD j default := by
    intro j hj hne
    rw [hbks2def, getD_append_lt _ _ _ _ (by rw [hsetlen]; exact hj)]
    exact getD_set_ne _ _ _ _ _ (fun he => hne he.symm)
  have hB4 : ∀ x ∈ bks2, x = tgt2 ∨ x = nbF ∨ x ∈ t.buckets := by
    intro x hx
    rw [hbks2def] at hx
    rcases List.mem_append.1 hx with hx | hx
    · rcases mem_set_elim hx with hx | hx
      · exact Or.inl hx
      · exact Or.inr (Or.inr hx)
    · exact Or.inr (Or.inl (List.mem_singleton.1 hx))
  have hslotlt : ∀ a : Nat, a % 2 ^ t.global_depth < t.dir.length := by
    intro a
    rw [hdlen]
    exact Nat.mod_lt _ (two_pow_pos _)
  have hM1 : ∀ kv ∈ (t.buckets.getD bid default).list,
      t.dir.getD (hash kv.1 % 2 ^ t.global_depth) 0 = bid :=
    hinv.contents bid hbid
  have hM2 : ∀ kv ∈ (t.buckets.getD bid default).list,
      dir2.getD (hash kv.1 % 2 ^ t.global_depth) 0 = bid ∨
      dir2.getD (hash kv.1 % 2 ^ t.global_depth) 0 = newBid := by
    intro kv hkv
    rw [F1 _ (hslotlt _), if_pos (hM1 kv hkv)]
    by_cases hbit : (hash kv.1 % 2 ^ t.global_depth) / 2 ^ ld % 2 = 0
    · rw [if_pos hbit]
      exact Or.inl rfl
    · rw [if_neg hbit]
      exact Or.inr rfl
  have hbidne : bid ≠ newBid := by
    rw [hnewBiddef]
    omega
  refine ⟨⟨?_, ?_, ?_, ?_, ?_, ?_, ?_, ?_, ?_⟩, ?_, ?_, ?_⟩
  · show dir2.length = 2 ^ t.global_depth
    rw [hdir2len, hdlen]
  · show t.num_buckets + 1 = bks2.length
    rw [hlen2, hinv.nbuckets]
  · show ∀ i, i < dir2.length → dir2.getD i 0 < bks2.length
    intro i hi
    rw [hdir2len] at hi
    rw [hlen2, F1 i hi]
    by_cases ho : t.dir.getD i 0 = bid
    · rw [if_pos ho]
      by_cases hbit : i / 2 ^ ld % 2 = 0
      · rw [if_pos hbit]
        omega
      · rw [if_neg hbit]
        rw [hnewBiddef]
        omega
    · rw [if_neg ho]
      have := hinv.dval i hi
      omega
  · show ∀ b ∈ bks2, b.size = t.bucket_size
    intro b hb
    rcases hB4 b hb with hb | hb | hb
    · rw [hb]
      show (t.buckets.getD bid default).size = t.bucket_size
      exact hinv.bsize _ hb_mem
    · rw [hb]
    · exact hinv.bsize b hb
  · show ∀ b ∈ bks2, b.list.length ≤ t.bucket_size
    intro b hb
    rcases hB4 b hb with hb | hb | hb
    · rw [hb]
      show ((t.buckets.getD bid default).list.filter pred).length
        ≤ t.bucket_size
      exact le_trans (List.length_filter_le _ _) hcapb
    · rw [hb]
      show ((t.buckets.getD bid default).list.filter
        (fun kv => !(pred kv))).length ≤ t.bucket_size
      exact le_trans (List.length_filter_le _ _) hcapb
    · exact hinv.cap b hb
  · show ∀ b ∈ bks2, b.depth ≤ t.global_depth
    intro b hb
    rcases hB4 b hb with hb | hb | hb
    · rw [hb]
      show ld + 1 ≤ t.global_depth
      exact hld
    · rw [hb]
      show ld + 1 ≤ t.global_depth
      exact hld
    · exact hinv.depth_le b hb
  · show ∀ b ∈ bks2, (b.list.map Prod.fst).Nodup
    intro b hb
    rcases hB4 b hb with hb | hb | hb
    · rw [hb]
      show (((t.buckets.getD bid default).list.filter pred).map
        Prod.fst).Nodup
      exact ((List.filter_sublist _).map Prod.fst).nodup (hinv.uniq _ hb_mem)
    · rw [hb]
      show (((t.buckets.getD bid default).list.filter
        (fun kv => !(pred kv))).map Prod.fst).Nodup
      exact ((List.filter_sublist _).map Prod.fst).nodup (hinv.uniq _ hb_mem)
    · exact hinv.uniq b hb
  · show ∀ bid2, bid2 < bks2.length →
      ∃ r2, r2 < 2 ^ (bks2.getD bid2 default).depth ∧
        ∀ i, i < dir2.length →
          (dir2.getD i 0 = bid2 ↔
            i % 2 ^ (bks2.getD bid2 default).depth = r2)
    intro bid2 hbid2
    rw [hlen2] at hbid2
    by_cases he1 : bid2 = bid
    · subst he1
      rw [hB1]
      show ∃ r2, r2 < 2 ^ (ld + 1) ∧ ∀ i, i < dir2.length →
        (dir2.getD i 0 = bid2 ↔ i % 2 ^ (ld + 1) = r2)
      refine ⟨r, lt_of_lt_of_le hr (Nat.pow_le_pow_right (by omega)
        (by omega)), ?_⟩
      intro i hi
      rw [hdir2len] at hi
      exact F2 i hi
    · by_cases he2 : bid2 = newBid
      · subst he2
        rw [hB2]
        show ∃ r2, r2 < 2 ^ (ld + 1) ∧ ∀ i, i < dir2.length →
          (dir2.getD i 0 = newBid ↔ i % 2 ^ (ld + 1) = r2)
        refine ⟨r + 2 ^ ld, by rw [pow_succ]; omega, ?_⟩
        intro i hi
        rw [hdir2len] at hi
        exact F3 i hi
      · have hlt2 : bid2 < t.buckets.length := by
          rw [hnewBiddef] at he2
          omega
        rw [hB3 bid2 hlt2 he1]
        obtain ⟨r2, hr2, hiff2⟩ := hinv.aliasing bid2 hlt2
        refine ⟨r2, hr2, ?_⟩
        intro i hi
        rw [hdir2len] at hi
        rw [← hiff2 i hi, F1 i hi]
        by_cases ho : t.dir.getD i 0 = bid
        · rw [if_pos ho]
          constructor
          · intro he
            by_cases hbit : i / 2 ^ ld % 2 = 0
            · rw [if_pos hbit] at he
              exact absurd he.symm he1
            · rw [if_neg hbit] at he
              exact absurd he.symm he2
          · intro he
            rw [ho] at he
            exact absurd he.symm he1
        · rw [if_neg ho]
  · show ∀ bid2, bid2 < bks2.length →
      ∀ kv ∈ (bks2.getD bid2 default).list,
        dir2.getD (hash kv.1 % 2 ^ t.global_depth) 0 = bid2
    intro bid2 hbid2 kv hkv
    rw [hlen2] at hbid2
    by_cases he1 : bid2 = bid
    · rw [he1] at hkv ⊢
      rw [hB1] at hkv
      have hkv2 : kv ∈ (t.buckets.getD bid default).list.filter pred := hkv
      have h2 := (List.mem_filter.1 hkv2).2
      have h3 : (dir2.getD (hash kv.1 % 2 ^ t.global_depth) 0 == bid)
          = true := h2
      exact beq_iff_eq.1 h3
    · by_cases he2 : bid2 = newBid
      · rw [he2] at hkv ⊢
        rw [hB2] at hkv
        have hkv2 : kv ∈ (t.buckets.getD bid default).list.filter
          (fun kv => !(pred kv)) := hkv
        have h2 := (List.mem_filter.1 hkv2).2
        have h3 := (List.mem_filter.1 hkv2).1
        have h4 : (!(dir2.getD (hash kv.1 % 2 ^ t.global_depth) 0 == bid))
            = true := h2
        rw [Bool.not_eq_true'] at h4
        rcases hM2 kv h3 with h5 | h5
        · exact absurd (beq_iff_eq.2 h5)
            (by rw [h4]; exact Bool.false_ne_true)
        · exact h5
      · have hlt2 : bid2 < t.buckets.length := by
          rw [hnewBiddef] at he2
          omega
        rw [hB3 bid2 hlt2 he1] at hkv
        have ho := hinv.contents bid2 hlt2 kv hkv
        rw [F1 _ (hslotlt _),
          if_neg (fun hc => he1 (by rw [ho] at hc; exact hc))]
        exact ho
  · intro k2
    show (bks2.getD (dir2.getD (hash k2 % 2 ^ t.global_depth) 0)
      default).find k2 = HT.find hash t k2
    unfold HT.find HT.indexOf
    by_cases ho : t.dir.getD (hash k2 % 2 ^ t.global_depth) 0 = bid
    · rw [ho, F1 _ (hslotlt (hash k2)), if_pos ho]
      by_cases hbit : (hash k2 % 2 ^ t.global_depth) / 2 ^ ld % 2 = 0
      · rw [if_pos hbit, hB1]
        show (((t.buckets.getD bid default).list.filter pred).find?
          (fun kv => kv.1 == k2)).map (fun kv => kv.2) = _
        rw [find?_filter_key pred ?hall]
        · rfl
        case hall =>
          intro kv hkv hk
          show (dir2.getD (hash kv.1 % 2 ^ t.global_depth) 0 == bid) = true
          rw [hk, F1 _ (hslotlt (hash k2)), if_pos ho, if_pos hbit]
          exact beq_iff_eq.2 rfl
      · rw [if_neg hbit, hB2]
        show (((t.buckets.getD bid default).list.filter
          (fun kv => !(pred kv))).find? (fun kv => kv.1 == k2)).map
            (fun kv => kv.2) = _
        rw [find?_filter_key (fun kv => !(pred kv)) ?hall2]
        · rfl
        case hall2 =>
          intro kv hkv hk
          show (!(dir2.getD (hash kv.1 % 2 ^ t.global_depth) 0 == bid))
            = true
          rw [hk, F1 _ (hslotlt (hash k2)), if_pos ho, if_neg hbit]
          simp only [Bool.not_eq_true', beq_eq_false_iff_ne, ne_eq]
          exact fun he => hbidne he.symm
    · rw [F1 _ (hslotlt (hash k2)), if_neg ho]
      rw [hB3 _ (hinv.dval _ (hslotlt (hash k2))) ho]
  · show List.Perm ((bks2.map (fun b => b.list.map Prod.fst)).flatten)
      (keysList t)
    have hA := flatten_set_perm (fun b : Bucket K V => b.list.map Prod.fst)
      t.buckets bid tgt2 hbid
    rw [← getD_eq_get t.buckets bid default hbid] at hA
    have hA2 : List.Perm
        (((t.buckets.set bid tgt2).map
          (fun b => b.list.map Prod.fst)).flatten ++
          (t.buckets.getD bid default).list.map Prod.fst)
        ((t.buckets.map (fun b => b.list.map Prod.fst)).flatten ++
          stay.map Prod.fst) := hA
    have hBperm : List.Perm
        (stay.map Prod.fst ++ move.map Prod.fst)
        ((t.buckets.getD bid default).list.map Prod.fst) := by
      rw [← List.map_append]
      refine List.Perm.map Prod.fst ?_
      rw [hstaydef, hmovedef]
      exact List.filter_append_perm pred _
    rw [hbks2def, List.map_append, List.flatten_append]
    have hnb : (([nbF].map (fun b => b.list.map Prod.fst)).flatten)
        = move.map Prod.fst := by
      simp only [List.map_cons, List.map_nil, List.flatten_cons,
        List.flatten_nil, List.append_nil]
    rw [hnb]
    show List.Perm (((t.buckets.set bid tgt2).map
      (fun b => b.list.map Prod.fst)).flatten ++ move.map Prod.fst)
      ((t.buckets.map (fun b => b.list.map Prod.fst)).flatten)
    refine (List.perm_append_right_iff (stay.map Prod.fst)).1 ?_
    rw [List.append_assoc]
    refine List.Perm.trans (List.Perm.append_left _ ?_) hA2
    exact List.Perm.trans List.perm_append_comm hBperm
  · intro k2 hk2
    show (bks2.getD (dir2.getD (hash k2 % 2 ^ t.global_depth) 0)
      default).depth = ld + 1
    have hj : (hash k2 % 2 ^ t.global_depth) % 2 ^ ld = r := by
      rw [mod_pow_le _ (le_of_lt hld), hk2, hrIdx]
    have ho : t.dir.getD (hash k2 % 2 ^ t.global_depth) 0 = bid :=
      (hiff _ (hslotlt (hash k2))).2 hj
    rw [F1 _ (hslotlt (hash k2)), if_pos ho]
    by_cases hbit : (hash k2 % 2 ^ t.global_depth) / 2 ^ ld % 2 = 0
    · rw [if_pos hbit, hB1]
    · rw [if_neg hbit, hB2]

/-! ## Updating a single bucket in place -/

theorem hinv_set_bucket {K V : Type} [DecidableEq K] {hash : K → Nat}
    {s : HT K V} (hinv : HInv hash s) {bid : Nat}
    (hbid : bid < s.buckets.length) {b2 : Bucket K V}
    (hdep : b2.depth = (s.buckets.getD bid default).depth)
    (hsz : b2.size = (s.buckets.getD bid default).size)
    (hcap2 : b2.list.length ≤ s.bucket_size)
    (hnd2 : (b2.list.map Prod.fst).Nodup)
    (hcont : ∀ kv ∈ b2.list,
      s.dir.getD (hash kv.1 % 2 ^ s.global_depth) 0 = bid) :
    HInv hash { s with buckets := s.buckets.set bid b2 } := by
  have hb_mem : s.buckets.getD bid default ∈ s.buckets := getD_mem _ _ _ hbid
  have hlenset : (s.buckets.set bid b2).length = s.buckets.length :=
    List.length_set _ _ _
  refine ⟨hinv.dlen, ?_, ?_, ?_, ?_, ?_, ?_, ?_, ?_⟩
  · show s.num_buckets = (s.buckets.set bid b2).length
    rw [hlenset]
    exact hinv.nbuckets
  · show ∀ i, i < s.dir.length → s.dir.getD i 0 < (s.buckets.set bid b2).length
    intro i hi
    rw [hlenset]
    exact hinv.dval i hi
  · intro b hb
    rcases mem_set_elim hb with hb | hb
    · rw [hb, hsz]
      exact hinv.bsize _ hb_mem
    · exact hinv.bsize b hb
  · intro b hb
    rcases mem_set_elim hb with hb | hb
    · rw [hb]
      exact hcap2
    · exact hinv.cap b hb
  · intro b hb
    rcases mem_set_elim hb with hb | hb
    · rw [hb, hdep]
      exact hinv.depth_le _ hb_mem
    · exact hinv.depth_le b hb
  · intro b hb
    rcases mem_set_elim hb with hb | hb
    · rw [hb]
      exact hnd2
    · exact hinv.uniq b hb
  · intro bid2 hbid2
    rw [hlenset] at hbid2
    obtain ⟨r, hr, hiff⟩ := hinv.aliasing bid2 hbid2
    by_cases he : bid2 = bid
    · subst he
      rw [getD_set_self _ _ _ _ hbid2, hdep]
      exact ⟨r, hr, hiff⟩
    · rw [getD_set_ne _ _ _ _ _ (fun hc => he hc.symm)]
      exact ⟨r, hr, hiff⟩
  · intro bid2 hbid2 kv hkv
    rw [hlenset] at hbid2
    by_cases he : bid2 = bid
    · subst he
      rw [getD_set_self _ _ _ _ hbid2] at hkv
      exact hcont kv hkv
    · rw [getD_set_ne _ _ _ _ _ (fun hc => he hc.symm)] at hkv
      exact hinv.contents bid2 hbid2 kv hkv

theorem find_set_bucket {K V : Type} [DecidableEq K] (hash : K → Nat)
    (s : HT K V) {bid : Nat} (hbid : bid < s.buckets.length)
    (b2 : Bucket K V) (k2 : K) :
    HT.find hash { s with buckets := s.buckets.set bid b2 } k2 =
      if s.dir.getD (HT.indexOf hash s k2) 0 = bid then b2.find k2
      else HT.find hash s k2 := by
  unfold HT.find HT.indexOf
  by_cases ho : s.dir.getD (hash k2 % 2 ^ s.global_depth) 0 = bid
  · rw [if_pos ho]
    show ((s.buckets.set bid b2).getD
      (s.dir.getD (hash k2 % 2 ^ s.global_depth) 0) default).find k2 = _
    rw [ho, getD_set_self _ _ _ _ hbid]
  · rw [if_neg ho]
    show ((s.buckets.set bid b2).getD
      (s.dir.getD (hash k2 % 2 ^ s.global_depth) 0) default).find k2 = _
    rw [getD_set_ne _ _ _ _ _ (fun hc => ho hc.symm)]

/-! ## One full split iteration of `Insert` -/

theorem splitStep_spec {K V : Type} [DecidableEq K] {hash : K → Nat}
    {s : HT K V} (hinv : HInv hash s) (k : K) :
    HInv hash (splitStep hash s (HT.indexOf hash s k)
      (s.dir.getD (HT.indexOf hash s k) 0)) ∧
    (∀ k2, HT.find hash (splitStep hash s (HT.indexOf hash s k)
      (s.dir.getD (HT.indexOf hash s k) 0)) k2 = HT.find hash s k2) ∧
    List.Perm (keysList (splitStep hash s (HT.indexOf hash s k)
      (s.dir.getD (HT.indexOf hash s k) 0))) (keysList s) ∧
    (splitStep hash s (HT.indexOf hash s k)
      (s.dir.getD (HT.indexOf hash s k) 0)).bucket_size = s.bucket_size ∧
    depthAt hash (splitStep hash s (HT.indexOf hash s k)
      (s.dir.getD (HT.indexOf hash s k) 0)) k = depthAt hash s k + 1 := by
  have hidxlt : HT.indexOf hash s k < s.dir.length := by
    unfold HT.indexOf
    rw [hinv.dlen]
    exact Nat.mod_lt _ (two_pow_pos _)
  have hbidlt : s.dir.getD (HT.indexOf hash s k) 0 < s.buckets.length :=
    hinv.dval _ hidxlt
  obtain ⟨hinvd, hbkts, hbsz, hfindd, hdeplt, hjall, hgdle, hslot⟩ :=
    maybeDouble_spec hinv (s.dir.getD (HT.indexOf hash s k) 0) hbidlt
  set t := maybeDouble s (s.dir.getD (HT.indexOf hash s k) 0) with htdef
  have hbid_t : s.dir.getD (HT.indexOf hash s k) 0 < t.buckets.length := by
    rw [hbkts]
    exact hbidlt
  have hgetD_t : t.buckets.getD (s.dir.getD (HT.indexOf hash s k) 0) default
      = s.buckets.getD (s.dir.getD (HT.indexOf hash s k) 0) default := by
    rw [hbkts]
  have hld_t : (t.buckets.getD (s.dir.getD (HT.indexOf hash s k) 0)
      default).depth < t.global_depth := by
    rw [hgetD_t]
    exact hdeplt
  have hidxlt_t : HT.indexOf hash s k < t.dir.length := by
    have h1 : t.dir.length = 2 ^ t.global_depth := hinvd.dlen
    have h2 : s.dir.length = 2 ^ s.global_depth := hinv.dlen
    have h3 : (2 : Nat) ^ s.global_depth ≤ 2 ^ t.global_depth :=
      Nat.pow_le_pow_right (by omega) hgdle
    omega
  have hdirx_t : t.dir.getD (HT.indexOf hash s k) 0
      = s.dir.getD (HT.indexOf hash s k) 0 := hjall _ hidxlt
  obtain ⟨hc1, hc2, hc3, hc4⟩ :=
    splitCoreFn_spec hinvd hbid_t hld_t hidxlt_t hdirx_t
  have hkeys_ts : keysList t = keysList s := by
    unfold keysList
    rw [hbkts]
  have hdle : (s.buckets.getD (s.dir.getD (HT.indexOf hash s k) 0)
      default).depth ≤ s.global_depth :=
    hinv.depth_le _ (getD_mem _ _ _ hbidlt)
  have hdepthk : hash k % 2 ^ (t.buckets.getD
      (s.dir.getD (HT.indexOf hash s k) 0) default).depth =
      HT.indexOf hash s k % 2 ^ (t.buckets.getD
        (s.dir.getD (HT.indexOf hash s k) 0) default).depth := by
    rw [hgetD_t]
    show hash k % 2 ^ _ = hash k % 2 ^ s.global_depth % 2 ^ _
    exact (mod_pow_le _ hdle).symm
  have hsplit : splitStep hash s (HT.indexOf hash s k)
      (s.dir.getD (HT.indexOf hash s k) 0)
      = splitCoreFn hash t (HT.indexOf hash s k)
        (s.dir.getD (HT.indexOf hash s k) 0) := rfl
  rw [hsplit]
  refine ⟨hc1, ?_, ?_, hbsz, ?_⟩
  · intro k2
    rw [hc2 k2, hfindd k2]
  · rw [← hkeys_ts]
    exact hc3
  · rw [hc4 k hdepthk, hgetD_t]
    rfl

/-! ## The insert loop: invariant preservation and map update -/

theorem insertLoop_succ {K V : Type} [DecidableEq K] (hash : K → Nat)
    (fuel : Nat) (s : HT K V) (k : K) (v : V) :
    insertLoop hash (fuel + 1) s k v =
      (if ((s.buckets.getD (s.dir.getD (HT.indexOf hash s k) 0)
            default).insert k v).2
        then some { s with buckets := (s.buckets.set
          (s.dir.getD (HT.indexOf hash s k) 0)
          ((s.buckets.getD (s.dir.getD (HT.indexOf hash s k) 0)
            default).insert k v).1) }
        else insertLoop hash fuel (splitStep hash s (HT.indexOf hash s k)
          (s.dir.getD (HT.indexOf hash s k) 0)) k v) := rfl

theorem insertLoop_spec {K V : Type} [DecidableEq K] {hash : K → Nat} :
    ∀ {fuel : Nat} {s s2 : HT K V} {k : K} {v : V}, HInv hash s →
      insertLoop hash fuel s k v = some s2 →
      HInv hash s2 ∧
      (∀ k2, HT.find hash s2 k2 =
        if k2 = k then some v else HT.find hash s k2) := by
  intro fuel
  induction fuel with
  | zero =>
      intro s s2 k v hinv h
      exact absurd h (by simp [insertLoop])
  | succ fuel ih =>
      intro s s2 k v hinv h
      rw [insertLoop_succ] at h
      have hidxlt : HT.indexOf hash s k < s.dir.length := by
        unfold HT.indexOf
        rw [hinv.dlen]
        exact Nat.mod_lt _ (two_pow_pos _)
      have hbidlt : s.dir.getD (HT.indexOf hash s k) 0 < s.buckets.length :=
        hinv.dval _ hidxlt
      have hb_mem : s.buckets.getD (s.dir.getD (HT.indexOf hash s k) 0)
          default ∈ s.buckets := getD_mem _ _ _ hbidlt
      by_cases hp : ((s.buckets.getD (s.dir.getD (HT.indexOf hash s k) 0)
          default).insert k v).2 = true
      · rw [if_pos hp] at h
        injection h with h2
        subst h2
        have hgoal : ∀ b2 : Bucket K V,
            ((s.buckets.getD (s.dir.getD (HT.indexOf hash s k) 0)
              default).insert k v).1 = b2 →
            b2.depth = (s.buckets.getD (s.dir.getD (HT.indexOf hash s k) 0)
              default).depth →
            b2.size = (s.buckets.getD (s.dir.getD (HT.indexOf hash s k) 0)
              default).size →
            b2.list.length ≤ s.bucket_size →
            (b2.list.map Prod.fst).Nodup →
            (∀ kv ∈ b2.list,
              s.dir.getD (hash kv.1 % 2 ^ s.global_depth) 0
                = s.dir.getD (HT.indexOf hash s k) 0) →
            b2.find k = some v →
            (∀ k3, k3 ≠ k → b2.find k3
              = (s.buckets.getD (s.dir.getD (HT.indexOf hash s k) 0)
                default).find k3) →
            HInv hash { s with buckets := (s.buckets.set
              (s.dir.getD (HT.indexOf hash s k) 0)
              ((s.buckets.getD (s.dir.getD (HT.indexOf hash s k) 0)
                default).insert k v).1) } ∧
            (∀ k2, HT.find hash { s with buckets := (s.buckets.set
              (s.dir.getD (HT.indexOf hash s k) 0)
              ((s.buckets.getD (s.dir.getD (HT.indexOf hash s k) 0)
                default).insert k v).1) } k2 =
              if k2 = k then some v else HT.find hash s k2) := by
          intro b2 hb2 hdep hsz hcap2 hnd2 hcont hfself hfother
          rw [hb2]
          constructor
          · exact hinv_set_bucket hinv hbidlt hdep hsz hcap2 hnd2 hcont
          · intro k2
            rw [find_set_bucket hash s hbidlt b2 k2]
            by_cases he : k2 = k
            · subst he
              rw [if_pos rfl, if_pos rfl]
              exact hfself
            · rw [if_neg he]
              by_cases hsame : s.dir.getD (HT.indexOf hash s k2) 0
                  = s.dir.getD (HT.indexOf hash s k) 0
              · rw [if_pos hsame, hfother k2 he]
                unfold HT.find
                rw [hsame]
              · rw [if_neg hsame]
        cases hrfv : replaceFirstValue
            (s.buckets.getD (s.dir.getD (HT.indexOf hash s k) 0)
              default).list k v with
        | some l2 =>
            have hbi := bucket_insert_overwrite hrfv
            have hfst : ((s.buckets.getD
                (s.dir.getD (HT.indexOf hash s k) 0) default).insert k v).1
                = { s.buckets.getD (s.dir.getD (HT.indexOf hash s k) 0)
                    default with list := l2 } := by
              rw [hbi]
            refine hgoal _ hfst rfl rfl ?_ ?_ ?_ ?_ ?_
            · show l2.length ≤ s.bucket_size
              rw [replaceFirstValue_some_length hrfv]
              exact hinv.cap _ hb_mem
            · show (l2.map Prod.fst).Nodup
              rw [replaceFirstValue_some_keys hrfv]
              exact hinv.uniq _ hb_mem
            · intro kv hkv
              have h1 : kv.1 ∈ l2.map Prod.fst := List.mem_map_of_mem _ hkv
              rw [replaceFirstValue_some_keys hrfv] at h1
              obtain ⟨kv2, hkv2, hfeq⟩ := List.mem_map.1 h1
              rw [← hfeq]
              exact hinv.contents _ hbidlt kv2 hkv2
            · show ((l2.find? (fun kv => kv.1 == k)).map (fun kv => kv.2))
                = some v
              exact replaceFirstValue_find_self hrfv
            · intro k3 hne
              show ((l2.find? (fun kv => kv.1 == k3)).map (fun kv => kv.2))
                = _
              rw [replaceFirstValue_find_other k3 hne hrfv]
              rfl
        | none =>
            have hfull : (s.buckets.getD
                (s.dir.getD (HT.indexOf hash s k) 0) default).isFull
                = false := by
              by_contra hc
              rw [Bool.not_eq_false] at hc
              have h2 : ((s.buckets.getD
                  (s.dir.getD (HT.indexOf hash s k) 0) default).insert k v).2
                  = false := by
                rw [bucket_insert_full_none hrfv hc]
              rw [h2] at hp
              exact absurd hp Bool.false_ne_true
            have hknot : k ∉ ((s.buckets.getD
                (s.dir.getD (HT.indexOf hash s k) 0) default).list.map
                  Prod.fst) :=
              replaceFirstValue_eq_none.1 hrfv
            have hbi := bucket_insert_append hrfv hfull
            have hfst : ((s.buckets.getD
                (s.dir.getD (HT.indexOf hash s k) 0) default).insert k v).1
                = { s.buckets.getD (s.dir.getD (HT.indexOf hash s k) 0)
                    default with
                      list := (s.buckets.getD
                        (s.dir.getD (HT.indexOf hash s k) 0) default).list
                          ++ [(k, v)] } := by
              rw [hbi]
            have hltcap : (s.buckets.getD
                (s.dir.getD (HT.indexOf hash s k) 0) default).list.length
                < s.bucket_size := by
              have h1 := hinv.cap _ hb_mem
              have h2 := hinv.bsize _ hb_mem
              have h3 : ((s.buckets.getD (s.dir.getD (HT.indexOf hash s k) 0)
                  default).list.length == (s.buckets.getD
                    (s.dir.getD (HT.indexOf hash s k) 0) default).size)
                  = false := hfull
              rw [beq_eq_false_iff_ne] at h3
              omega
            refine hgoal _ hfst rfl rfl ?_ ?_ ?_ ?_ ?_
            · show ((s.buckets.getD (s.dir.getD (HT.indexOf hash s k) 0)
                default).list ++ [(k, v)]).length ≤ s.bucket_size
              rw [List.length_append]
              simpa using hltcap
            · show (((s.buckets.getD (s.dir.getD (HT.indexOf hash s k) 0)
                default).list ++ [(k, v)]).map Prod.fst).Nodup
              rw [List.map_append]
              rw [List.nodup_append]
              refine ⟨hinv.uniq _ hb_mem, by simp, ?_⟩
              intro a ha hb
              simp only [List.map_cons, List.map_nil, List.mem_cons,
                List.not_mem_nil, or_false] at hb
              rw [hb] at ha
              exact hknot ha
            · intro kv hkv
              rcases List.mem_append.1 hkv with hkv | hkv
              · exact hinv.contents _ hbidlt kv hkv
              · simp only [List.mem_cons, List.not_mem_nil, or_false] at hkv
                rw [hkv]
                rfl
            · show (((s.buckets.getD (s.dir.getD (HT.indexOf hash s k) 0)
                default).list ++ [(k, v)]).find?
                  (fun kv => kv.1 == k)).map (fun kv => kv.2) = some v
              exact find?_append_key_self hknot v
            · intro k3 hne
              show (((s.buckets.getD (s.dir.getD (HT.indexOf hash s k) 0)
                default).list ++ [(k, v)]).find?
                  (fun kv => kv.1 == k3)).map (fun kv => kv.2) = _
              rw [find?_append_key_other hne v]
              rfl
      · rw [if_neg hp] at h
        obtain ⟨hs1, hs2, hs3, hs4, hs5⟩ := splitStep_spec hinv k
        obtain ⟨hinv2, hupd⟩ := ih hs1 h
        refine ⟨hinv2, ?_⟩
        intro k2
        rw [hupd k2]
        by_cases he : k2 = k
        · rw [if_pos he, if_pos he]
        · rw [if_neg he, if_neg he, hs2 k2]

/-! ## `Remove`: invariant preservation, map update, return value -/

theorem isSome_map_snd {K V : Type} (o : Option (K × V)) :
    (o.map (fun kv => kv.2)).isSome = o.isSome := by
  cases o <;> rfl

theorem remove_spec {K V : Type} [DecidableEq K] {hash : K → Nat}
    {s : HT K V} (hinv : HInv hash s) (k : K) :
    HInv hash (HT.remove hash s k).1 ∧
    (∀ k2, HT.find hash (HT.remove hash s k).1 k2 =
      if k2 = k then none else HT.find hash s k2) ∧
    (HT.remove hash s k).2 = (HT.find hash s k).isSome := by
  have hidxlt : HT.indexOf hash s k < s.dir.length := by
    unfold HT.indexOf
    rw [hinv.dlen]
    exact Nat.mod_lt _ (two_pow_pos _)
  have hbidlt : s.dir.getD (HT.indexOf hash s k) 0 < s.buckets.length :=
    hinv.dval _ hidxlt
  have hb_mem : s.buckets.getD (s.dir.getD (HT.indexOf hash s k) 0)
      default ∈ s.buckets := getD_mem _ _ _ hbidlt
  have hnd := hinv.uniq _ hb_mem
  have hrem : HT.remove hash s k
      = ({ s with buckets := (s.buckets.set
          (s.dir.getD (HT.indexOf hash s k) 0)
          ((s.buckets.getD (s.dir.getD (HT.indexOf hash s k) 0)
            default).remove k).1) },
        ((s.buckets.getD (s.dir.getD (HT.indexOf hash s k) 0)
          default).remove k).2) := rfl
  cases hek : eraseFirstKey (s.buckets.getD
      (s.dir.getD (HT.indexOf hash s k) 0) default).list k with
  | none =>
      have hknot : k ∉ ((s.buckets.getD
          (s.dir.getD (HT.indexOf hash s k) 0) default).list.map Prod.fst) :=
        eraseFirstKey_eq_none.1 hek
      have hbr : (s.buckets.getD (s.dir.getD (HT.indexOf hash s k) 0)
          default).remove k
          = (s.buckets.getD (s.dir.getD (HT.indexOf hash s k) 0) default,
            false) := by
        unfold Bucket.remove
        rw [hek]
      have hbfind : (s.buckets.getD (s.dir.getD (HT.indexOf hash s k) 0)
          default).find k = none := by
        unfold Bucket.find
        rw [find?_key_eq_none hknot]
        rfl
      have hfnone : HT.find hash s k = none := hbfind
      rw [hrem, hbr]
      refine ⟨?_, ?_, ?_⟩
      · exact hinv_set_bucket hinv hbidlt rfl rfl (hinv.cap _ hb_mem) hnd
          (fun kv hkv => hinv.contents _ hbidlt kv hkv)
      · intro k2
        rw [find_set_bucket hash s hbidlt _ k2]
        by_cases he : k2 = k
        · subst he
          rw [if_pos rfl, if_pos rfl]
          exact hbfind
        · rw [if_neg he]
          by_cases hsame : s.dir.getD (HT.indexOf hash s k2) 0
              = s.dir.getD (HT.indexOf hash s k) 0
          · rw [if_pos hsame]
            unfold HT.find
            rw [hsame]
          · rw [if_neg hsame]
      · rw [hfnone]
        rfl
  | some l2 =>
      have hkmem : k ∈ ((s.buckets.getD
          (s.dir.getD (HT.indexOf hash s k) 0) default).list.map
            Prod.fst) := by
        by_contra hc
        rw [← eraseFirstKey_eq_none] at hc
        rw [hek] at hc
        exact Option.noConfusion hc
      have hbr : (s.buckets.getD (s.dir.getD (HT.indexOf hash s k) 0)
          default).remove k
          = ({ s.buckets.getD (s.dir.getD (HT.indexOf hash s k) 0)
              default with list := l2 }, true) := by
        unfold Bucket.remove
        rw [hek]
      have hfsome : (HT.find hash s k).isSome = true := by
        show (((s.buckets.getD (s.dir.getD (HT.indexOf hash s k) 0)
          default).list.find? (fun kv => kv.1 == k)).map
            (fun kv => kv.2)).isSome = true
        rw [isSome_map_snd]
        exact (find?_key_isSome _ _).2 hkmem
      have hcapl2 : l2.length ≤ s.bucket_size := by
        have h1 := eraseFirstKey_length hek
        have h2 := hinv.cap _ hb_mem
        omega
      have hndl2 : (l2.map Prod.fst).Nodup :=
        (eraseFirstKey_keys_sublist hek).nodup hnd
      rw [hrem, hbr]
      refine ⟨?_, ?_, ?_⟩
      · exact hinv_set_bucket hinv hbidlt rfl rfl hcapl2 hndl2
          (fun kv hkv =>
            hinv.contents _ hbidlt kv (eraseFirstKey_mem hek kv hkv))
      · intro k2
        rw [find_set_bucket hash s hbidlt _ k2]
        by_cases he : k2 = k
        · subst he
          rw [if_pos rfl, if_pos rfl]
          show ((l2.find? (fun kv => kv.1 == k2)).map (fun kv => kv.2))
            = none
          rw [eraseFirstKey_find_self hnd hek]
          rfl
        · rw [if_neg he]
          by_cases hsame : s.dir.getD (HT.indexOf hash s k2) 0
              = s.dir.getD (HT.indexOf hash s k) 0
          · rw [if_pos hsame]
            show ((l2.find? (fun kv => kv.1 == k2)).map (fun kv => kv.2))
              = _
            rw [eraseFirstKey_find_other k2 he hek]
            unfold HT.find
            rw [hsame]
            rfl
          · rw [if_neg hsame]
      · rw [Bool.eq_iff_iff]
        simp only [hfsome]

/-! ## The fresh table satisfies the invariant -/

theorem hinv_new {K V : Type} [DecidableEq K] (hash : K → Nat) (bs : Nat) :
    HInv hash (HT.new K V bs) := by
  refine ⟨rfl, rfl, ?_, ?_, ?_, ?_, ?_, ?_, ?_⟩
  · intro i hi
    have hi0 : i = 0 := by
      simp only [HT.new, List.length_singleton] at hi
      omega
    subst hi0
    show (0 : Nat) < 1
    decide
  · intro b hb
    simp only [HT.new, List.mem_singleton] at hb
    rw [hb]
    rfl
  · intro b hb
    simp only [HT.new, List.mem_singleton] at hb
    rw [hb]
    exact Nat.zero_le _
  · intro b hb
    simp only [HT.new, List.mem_singleton] at hb
    rw [hb]
    exact Nat.zero_le _
  · intro b hb
    simp only [HT.new, List.mem_singleton] at hb
    rw [hb]
    exact List.nodup_nil
  · intro bid hbid
    refine ⟨0, ?_, ?_⟩
    · show 0 < 2 ^ ([(⟨[], bs, 0⟩ : Bucket K V)].getD bid default).depth
      exact two_pow_pos _
    · intro i hi
      show ([0].getD i 0 = bid ↔ _)
      have hb0 : bid = 0 := by
        simp only [HT.new, List.length_singleton] at hbid
        omega
      have hi0 : i = 0 := by
        simp only [HT.new, List.length_singleton] at hi
        omega
      subst hb0
      subst hi0
      simp
  · intro bid hbid kv hkv
    have hb0 : bid = 0 := by
      simp only [HT.new, List.length_singleton] at hbid
      omega
    subst hb0
    exact absurd hkv (List.not_mem_nil kv)

/-! ## Decomposing a snoc-trace around a remove event -/

theorem append_singleton_cases {α : Type} {l pre post : List α} {a b : α}
    (h : l ++ [a] = pre ++ b :: post) :
    (post = [] ∧ pre = l ∧ b = a) ∨
    (∃ post2, post = post2 ++ [a] ∧ l = pre ++ b :: post2) := by
  rcases List.eq_nil_or_concat post with hp | ⟨post2, c, hp⟩
  · subst hp
    have h2 : l ++ [a] = pre ++ [b] := h
    have h3 := List.append_inj' h2 rfl
    refine Or.inl ⟨rfl, h3.1.symm, ?_⟩
    have h4 := h3.2
    injection h4 with h5
    exact h5.symm
  · subst hp
    have h2 : l ++ [a] = (pre ++ b :: post2) ++ [c] := by
      rw [h]
      simp
    have h3 := List.append_inj' h2 rfl
    have h4 := h3.2
    injection h4 with h5
    subst h5
    exact Or.inr ⟨post2, List.concat_eq_append _ _, h3.1⟩

/-! ## The refinement of the abstract map along any execution trace -/

theorem trace_spec {K V : Type} [DecidableEq K] {hash : K → Nat} {bs : Nat}
    {evs : List (Event K V)} {s : HT K V} (h : RunTrace hash bs evs s) :
    HInv hash s ∧ (∀ k2, HT.find hash s k2 = specMap evs k2) ∧
    (∀ pre k r2 post, evs = pre ++ Event.removeE k r2 :: post →
      r2 = (specMap pre k).isSome) := by
  induction h with
  | init =>
      refine ⟨hinv_new hash bs, ?_, ?_⟩
      · intro k2
        show HT.find hash (HT.new K V bs) k2 = none
        unfold HT.find Bucket.find HT.indexOf
        simp [HT.new, Nat.mod_one]
      · intro pre k r2 post he
        cases pre <;> exact absurd he (by simp)
  | @insert evs1 s1 fuel s2 k v h1 h2 ih =>
      obtain ⟨hinv1, hfind1, hrem1⟩ := ih
      obtain ⟨hinv2, hfind2⟩ := insertLoop_spec hinv1 h2
      refine ⟨hinv2, ?_, ?_⟩
      · intro k2
        rw [hfind2 k2]
        simp only [specMap, List.foldl_append, List.foldl_cons,
          List.foldl_nil]
        show _ = applyEvent (evs1.foldl applyEvent fun _ => none)
          (Event.insertE k v) k2
        simp only [applyEvent]
        by_cases he : k2 = k
        · rw [if_pos he, if_pos he]
        · rw [if_neg he, if_neg he]
          exact hfind1 k2
      · intro pre k3 r3 post he
        rcases append_singleton_cases he with ⟨hpost, hpre, hev⟩ |
          ⟨post2, hpost, hl⟩
        · exact absurd hev (by simp)
        · exact hrem1 pre k3 r3 post2 hl
  | @remove evs1 s1 k h1 ih =>
      obtain ⟨hinv1, hfind1, hrem1⟩ := ih
      obtain ⟨hinv2, hfind2, hret⟩ := remove_spec hinv1 k
      refine ⟨hinv2, ?_, ?_⟩
      · intro k2
        rw [hfind2 k2]
        simp only [specMap, List.foldl_append, List.foldl_cons,
          List.foldl_nil]
        show _ = applyEvent (evs1.foldl applyEvent fun _ => none)
          (Event.removeE k (HT.remove hash s1 k).2) k2
        simp only [applyEvent]
        by_cases he : k2 = k
        · rw [if_pos he, if_pos he]
        · rw [if_neg he, if_neg he]
          exact hfind1 k2
      · intro pre k3 r3 post he
        rcases append_singleton_cases he with ⟨hpost, hpre, hev⟩ |
          ⟨post2, hpost, hl⟩
        · injection hev with hk3 hr3
          subst hk3
          subst hpre
          rw [hr3, hret, hfind1 k3]
        · exact hrem1 pre k3 r3 post2 hl

/-! ## Concrete execution trace for the hash-table witnesses -/

theorem wtrace5 : RunTrace hashId 2
    [Event.insertE 1 10, Event.insertE 2 20, Event.insertE 3 30,
      Event.insertE 1 11, Event.removeE 2 true] wH5 := by
  have t0 : RunTrace hashId 2 [] wH0 := RunTrace.init
  have t1 := RunTrace.insert t0
    (show insertLoop hashId 9 wH0 1 10 = some wH1 from rfl)
  have t2 := RunTrace.insert t1
    (show insertLoop hashId 9 wH1 2 20 = some wH2 from rfl)
  have t3 := RunTrace.insert t2
    (show insertLoop hashId 9 wH2 3 30 = some wH3 from rfl)
  have t4 := RunTrace.insert t3
    (show insertLoop hashId 9 wH3 1 11 = some wH4 from rfl)
  exact @RunTrace.remove Nat Nat _ hashId 2 _ wH4 2 t4

/-! ## Claims C1, C3, C4, C5 -/

/-- **C1** Hash-table map semantics: along every execution trace of the
public API from a fresh table, `Find` returns the value of the last
`Insert` for each key not subsequently removed and `none` otherwise, and
every `Remove` in the trace returned `true` exactly when its key was
present at the time of the call. -/
theorem hash_table_map_semantics {K V : Type} [DecidableEq K]
    {hash : K → Nat} {bs : Nat} {evs : List (Event K V)} {s : HT K V}
    (h : RunTrace hash bs evs s) :
    (∀ k2, HT.find hash s k2 = specMap evs k2) ∧
    (∀ pre k r2 post, evs = pre ++ Event.removeE k r2 :: post →
      r2 = (specMap pre k).isSome) :=
  ⟨(trace_spec h).2.1, (trace_spec h).2.2⟩

/-- Witness for C1: the five-event trace insert 1/2/3 (splitting), overwrite
key 1, then remove key 2, matches the abstract map and the remove returned
the presence bit. -/
theorem hash_table_map_semantics_witness :
    (∀ k2, HT.find hashId wH5 k2 = specMap
      [Event.insertE 1 10, Event.insertE 2 20, Event.insertE 3 30,
        Event.insertE 1 11, Event.removeE 2 true] k2) ∧
    true = (specMap
      [Event.insertE 1 10, Event.insertE 2 20, Event.insertE 3 30,
        Event.insertE 1 11] (2 : Nat)).isSome :=
  ⟨(hash_table_map_semantics wtrace5).1,
    (hash_table_map_semantics wtrace5).2
      [Event.insertE 1 10, Event.insertE 2 20, Event.insertE 3 30,
        Event.insertE 1 11] 2 true [] rfl⟩

/-- **C3** Directory aliasing invariant: in every reachable state, every
bucket of local depth `d` is referenced by exactly the directory slots whose
index has the bucket's common residue in the low `d` bits. -/
theorem directory_aliasing_invariant {K V : Type} [DecidableEq K]
    {hash : K → Nat} {bs : Nat} {evs : List (Event K V)} {s : HT K V}
    (h : RunTrace hash bs evs s) :
    ∀ bid, bid < s.buckets.length →
      ∃ r, r < 2 ^ (s.buckets.getD bid default).depth ∧
        ∀ i, i < s.dir.length →
          (s.dir.getD i 0 = bid ↔
            i % 2 ^ (s.buckets.getD bid default).depth = r) := by
  have h2 := (trace_spec h).1.aliasing
  intro bid hbid
  obtain ⟨r, hr, hiff⟩ := h2 bid hbid
  exact ⟨r, hr, fun i hi => hiff i hi⟩

/-- Witness for C3: bucket 0 of the post-split state `wH5`. -/
theorem directory_aliasing_invariant_witness :
    ∃ r, r < 2 ^ (wH5.buckets.getD 0 default).depth ∧
      ∀ i, i < wH5.dir.length →
        (wH5.dir.getD i 0 = 0 ↔
          i % 2 ^ (wH5.buckets.getD 0 default).depth = r) :=
  directory_aliasing_invariant wtrace5 0 (by decide)

/-- **C4** Depth discipline: in every reachable state the global depth
bounds every bucket's local depth and the directory has `2 ^ global_depth`
slots. -/
theorem depth_discipline_invariant {K V : Type} [DecidableEq K]
    {hash : K → Nat} {bs : Nat} {evs : List (Event K V)} {s : HT K V}
    (h : RunTrace hash bs evs s) :
    (∀ b ∈ s.buckets, b.depth ≤ s.global_depth) ∧
    s.dir.length = 2 ^ s.global_depth :=
  ⟨(trace_spec h).1.depth_le, (trace_spec h).1.dlen⟩

/-- Witness for C4 on the concrete post-split state `wH5`. -/
theorem depth_discipline_invariant_witness :
    (∀ b ∈ wH5.buckets, b.depth ≤ wH5.global_depth) ∧
    wH5.dir.length = 2 ^ wH5.global_depth :=
  depth_discipline_invariant wtrace5

/-- **C5** Inserting an existing key is a pure overwrite: a single
iteration of the insert loop succeeds (so no split happens, even on a full
bucket), the stored value for the key becomes `v`, and the global depth,
the whole directory, `num_buckets` and the bucket arena's length are all
unchanged. -/
theorem insert_existing_overwrites {K V : Type} [DecidableEq K]
    {hash : K → Nat} {s : HT K V} {k : K} {v0 : V} (v : V)
    (hpres : HT.find hash s k = some v0) :
    ∃ s2, insertLoop hash 1 s k v = some s2 ∧
      s2.global_depth = s.global_depth ∧
      s2.dir = s.dir ∧
      s2.num_buckets = s.num_buckets ∧
      s2.buckets.length = s.buckets.length ∧
      HT.find hash s2 k = some v ∧
      (∀ k2, k2 ≠ k → HT.find hash s2 k2 = HT.find hash s k2) := by
  have hbidlt : s.dir.getD (HT.indexOf hash s k) 0 < s.buckets.length := by
    by_contra hc
    push_neg at hc
    unfold HT.find at hpres
    rw [List.getD_eq_default _ _ hc] at hpres
    exact Option.noConfusion
      (show (none : Option V) = some v0 from hpres)
  have hkmem : k ∈ ((s.buckets.getD (s.dir.getD (HT.indexOf hash s k) 0)
      default).list.map Prod.fst) := by
    have h2 : (HT.find hash s k).isSome = true := by
      rw [hpres]
      rfl
    rw [show HT.find hash s k = ((s.buckets.getD
        (s.dir.getD (HT.indexOf hash s k) 0) default).list.find?
          (fun kv => kv.1 == k)).map (fun kv => kv.2) from rfl,
      isSome_map_snd] at h2
    exact (find?_key_isSome _ _).1 h2
  have hex : ∃ l2, replaceFirstValue (s.buckets.getD
      (s.dir.getD (HT.indexOf hash s k) 0) default).list k v = some l2 := by
    cases hr : replaceFirstValue (s.buckets.getD
        (s.dir.getD (HT.indexOf hash s k) 0) default).list k v with
    | none => exact absurd hkmem (replaceFirstValue_eq_none.1 hr)
    | some l2 => exact ⟨l2, rfl⟩
  obtain ⟨l2, hrfv⟩ := hex
  have hbi := bucket_insert_overwrite hrfv
  have hp2 : ((s.buckets.getD (s.dir.getD (HT.indexOf hash s k) 0)
      default).insert k v).2 = true := by
    rw [hbi]
  have hfst : ((s.buckets.getD (s.dir.getD (HT.indexOf hash s k) 0)
      default).insert k v).1
      = { s.buckets.getD (s.dir.getD (HT.indexOf hash s k) 0)
          default with list := l2 } := by
    rw [hbi]
  refine ⟨{ s with buckets := (s.buckets.set
      (s.dir.getD (HT.indexOf hash s k) 0)
      ((s.buckets.getD (s.dir.getD (HT.indexOf hash s k) 0)
        default).insert k v).1) }, ?_, rfl, rfl, rfl,
    List.length_set _ _ _, ?_, ?_⟩
  · rw [insertLoop_succ, if_pos hp2]
  · rw [find_set_bucket hash s hbidlt _ k, if_pos rfl, hfst]
    show ((l2.find? (fun kv => kv.1 == k)).map (fun kv => kv.2)) = some v
    exact replaceFirstValue_find_self hrfv
  · intro k2 hne
    rw [find_set_bucket hash s hbidlt _ k2]
    by_cases hsame : s.dir.getD (HT.indexOf hash s k2) 0
        = s.dir.getD (HT.indexOf hash s k) 0
    · rw [if_pos hsame, hfst]
      show ((l2.find? (fun kv => kv.1 == k2)).map (fun kv => kv.2)) = _
      rw [replaceFirstValue_find_other k2 hne hrfv]
      unfold HT.find
      rw [hsame]
      rfl
    · rw [if_neg hsame]

/-- Witness for C5: overwriting key 1 (present with value 10) in the
one-bucket state `wH1` by 99. -/
theorem insert_existing_overwrites_witness :
    HT.find hashId wH1 1 = some 10 ∧
    (∃ s2, insertLoop hashId 1 wH1 1 99 = some s2 ∧
      s2.global_depth = wH1.global_depth ∧
      s2.dir = wH1.dir ∧
      s2.num_buckets = wH1.num_buckets ∧
      s2.buckets.length = wH1.buckets.length ∧
      HT.find hashId s2 1 = some 99 ∧
      (∀ k2, k2 ≠ 1 → HT.find hashId s2 k2 = HT.find hashId wH1 k2)) :=
  ⟨rfl, @insert_existing_overwrites Nat Nat _ hashId wH1 1 10 99 rfl⟩

/-! ## Termination of the insert loop under the collision precondition -/

theorem bucket_keys_subset_keysList {K V : Type} {s : HT K V}
    {b : Bucket K V} (hb : b ∈ s.buckets) :
    ∀ k2 ∈ b.list.map Prod.fst, k2 ∈ keysList s := by
  intro k2 hk2
  unfold keysList
  rw [List.mem_flatten]
  exact ⟨b.list.map Prod.fst, List.mem_map_of_mem _ hb, hk2⟩

theorem insert_no_fail {K V : Type} [DecidableEq K] {hash : K → Nat}
    {W : Nat} {s : HT K V} {k : K} (hinv : HInv hash s)
    (hbound : ∀ k2 ∈ k :: keysList s, hash k2 < 2 ^ W)
    (hcoll : ((k :: keysList s).filter
      (fun k2 => hash k2 == hash k)).length ≤ s.bucket_size)
    (hdep : W ≤ depthAt hash s k) (v : V) :
    ((s.buckets.getD (s.dir.getD (HT.indexOf hash s k) 0)
      default).insert k v).2 = true := by
  by_contra hc
  rw [Bool.not_eq_true] at hc
  obtain ⟨hrfv, hfull⟩ := bucket_insert_false hc
  have hidxlt : HT.indexOf hash s k < s.dir.length := by
    unfold HT.indexOf
    rw [hinv.dlen]
    exact Nat.mod_lt _ (two_pow_pos _)
  have hbidlt : s.dir.getD (HT.indexOf hash s k) 0 < s.buckets.length :=
    hinv.dval _ hidxlt
  have hb_mem : s.buckets.getD (s.dir.getD (HT.indexOf hash s k) 0)
      default ∈ s.buckets := getD_mem _ _ _ hbidlt
  have hknot : k ∉ ((s.buckets.getD (s.dir.getD (HT.indexOf hash s k) 0)
      default).list.map Prod.fst) := replaceFirstValue_eq_none.1 hrfv
  have hlen : (s.buckets.getD (s.dir.getD (HT.indexOf hash s k) 0)
      default).list.length = s.bucket_size := by
    have h1 : ((s.buckets.getD (s.dir.getD (HT.indexOf hash s k) 0)
        default).list.length == (s.buckets.getD
          (s.dir.getD (HT.indexOf hash s k) 0) default).size) = true :=
      hfull
    rw [beq_iff_eq] at h1
    rw [h1]
    exact hinv.bsize _ hb_mem
  have hdle : (s.buckets.getD (s.dir.getD (HT.indexOf hash s k) 0)
      default).depth ≤ s.global_depth := hinv.depth_le _ hb_mem
  obtain ⟨r, hr, hiff⟩ := hinv.aliasing _ hbidlt
  have hkslot : HT.indexOf hash s k % 2 ^ (s.buckets.getD
      (s.dir.getD (HT.indexOf hash s k) 0) default).depth = r :=
    (hiff _ hidxlt).1 rfl
  have hkr : hash k % 2 ^ (s.buckets.getD
      (s.dir.getD (HT.indexOf hash s k) 0) default).depth = r := by
    rw [← mod_pow_le (hash k) hdle]
    exact hkslot
  have h2d : 2 ^ W ≤ 2 ^ (s.buckets.getD
      (s.dir.getD (HT.indexOf hash s k) 0) default).depth :=
    Nat.pow_le_pow_right (by omega) hdep
  have hbk : hash k < 2 ^ W := hbound k (List.mem_cons_self _ _)
  have hkr2 : hash k = r := by
    rw [← hkr, Nat.mod_eq_of_lt (lt_of_lt_of_le hbk h2d)]
  have hkeyeq : ∀ k2 ∈ (s.buckets.getD (s.dir.getD (HT.indexOf hash s k) 0)
      default).list.map Prod.fst, hash k2 = hash k := by
    intro k2 hk2
    obtain ⟨kv, hkv, hfeq⟩ := List.mem_map.1 hk2
    have hslot2 : s.dir.getD (hash kv.1 % 2 ^ s.global_depth) 0
        = s.dir.getD (HT.indexOf hash s k) 0 :=
      hinv.contents _ hbidlt kv hkv
    have hslot2lt : hash kv.1 % 2 ^ s.global_depth < s.dir.length := by
      rw [hinv.dlen]
      exact Nat.mod_lt _ (two_pow_pos _)
    have hres : (hash kv.1 % 2 ^ s.global_depth) % 2 ^ (s.buckets.getD
        (s.dir.getD (HT.indexOf hash s k) 0) default).depth = r :=
      (hiff _ hslot2lt).1 hslot2
    rw [mod_pow_le _ hdle] at hres
    have hres2 : hash k2 % 2 ^ (s.buckets.getD
        (s.dir.getD (HT.indexOf hash s k) 0) default).depth = r := by
      rw [← hfeq]
      exact hres
    have hb1 : hash k2 < 2 ^ W := hbound k2 (List.mem_cons_of_mem _
      (bucket_keys_subset_keysList hb_mem k2 hk2))
    rw [Nat.mod_eq_of_lt (lt_of_lt_of_le hb1 h2d)] at hres2
    rw [hres2, hkr2]
  have hsub : (k :: (s.buckets.getD (s.dir.getD (HT.indexOf hash s k) 0)
      default).list.map Prod.fst)
      ⊆ ((k :: keysList s).filter (fun k2 => hash k2 == hash k)) := by
    intro x hx
    rw [List.mem_filter]
    rcases List.mem_cons.1 hx with hx | hx
    · subst hx
      exact ⟨List.mem_cons_self _ _, by simp⟩
    · refine ⟨List.mem_cons_of_mem _
        (bucket_keys_subset_keysList hb_mem x hx), ?_⟩
      rw [beq_iff_eq]
      exact hkeyeq x hx
  have hnd : (k :: (s.buckets.getD (s.dir.getD (HT.indexOf hash s k) 0)
      default).list.map Prod.fst).Nodup :=
    List.nodup_cons.2 ⟨hknot, hinv.uniq _ hb_mem⟩
  have hsp := List.subperm_of_subset hnd hsub
  have hle := hsp.length_le
  rw [List.length_cons, List.length_map, hlen] at hle
  omega

theorem insertLoop_progress {K V : Type} [DecidableEq K] {hash : K → Nat}
    {W : Nat} :
    ∀ (fuel : Nat) (s : HT K V) (k : K) (v : V), HInv hash s →
      (∀ k2 ∈ k :: keysList s, hash k2 < 2 ^ W) →
      ((k :: keysList s).filter
        (fun k2 => hash k2 == hash k)).length ≤ s.bucket_size →
      W ≤ fuel + depthAt hash s k →
      ∃ s2, insertLoop hash (fuel + 1) s k v = some s2 := by
  intro fuel
  induction fuel with
  | zero =>
      intro s k v hinv hbound hcoll hdep
      have hdep0 : W ≤ depthAt hash s k := by omega
      have hp := insert_no_fail hinv hbound hcoll hdep0 v
      refine ⟨{ s with buckets := (s.buckets.set
        (s.dir.getD (HT.indexOf hash s k) 0)
        ((s.buckets.getD (s.dir.getD (HT.indexOf hash s k) 0)
          default).insert k v).1) }, ?_⟩
      rw [insertLoop_succ, if_pos hp]
  | succ fuel ih =>
      intro s k v hinv hbound hcoll hdep
      by_cases hp : ((s.buckets.getD (s.dir.getD (HT.indexOf hash s k) 0)
          default).insert k v).2 = true
      · refine ⟨{ s with buckets := (s.buckets.set
          (s.dir.getD (HT.indexOf hash s k) 0)
          ((s.buckets.getD (s.dir.getD (HT.indexOf hash s k) 0)
            default).insert k v).1) }, ?_⟩
        rw [insertLoop_succ, if_pos hp]
      · obtain ⟨hs1, hsf, hs3, hs4, hs5⟩ := splitStep_spec hinv k
        have hperm : List.Perm (k :: keysList (splitStep hash s
            (HT.indexOf hash s k) (s.dir.getD (HT.indexOf hash s k) 0)))
            (k :: keysList s) := hs3.cons k
        have hbound2 : ∀ k2 ∈ k :: keysList (splitStep hash s
            (HT.indexOf hash s k) (s.dir.getD (HT.indexOf hash s k) 0)),
            hash k2 < 2 ^ W := by
          intro k2 hk2
          exact hbound k2 (hperm.mem_iff.1 hk2)
        have hcoll2 : ((k :: keysList (splitStep hash s (HT.indexOf hash s k)
            (s.dir.getD (HT.indexOf hash s k) 0))).filter
              (fun k2 => hash k2 == hash k)).length
            ≤ (splitStep hash s (HT.indexOf hash s k)
              (s.dir.getD (HT.indexOf hash s k) 0)).bucket_size := by
          rw [hs4, (hperm.filter _).length_eq]
          exact hcoll
        have hdep2 : W ≤ fuel + depthAt hash (splitStep hash s
            (HT.indexOf hash s k) (s.dir.getD (HT.indexOf hash s k) 0))
              k := by
          rw [hs5]
          omega
        obtain ⟨s2, hrec⟩ := ih (splitStep hash s (HT.indexOf hash s k)
          (s.dir.getD (HT.indexOf hash s k) 0)) k v hs1 hbound2 hcoll2 hdep2
        refine ⟨s2, ?_⟩
        rw [insertLoop_succ, if_neg hp]
        exact hrec

/-- **C6** Insert termination: from any reachable table state, if every
relevant hash fits in `W` bits and at most `bucket_size` of the stored keys
together with `k` share `k`'s full hash value, then the insert/split loop
terminates — fuel `W + 1` already suffices. -/
theorem insert_terminates {K V : Type} [DecidableEq K] {hash : K → Nat}
    {bs W : Nat} {evs : List (Event K V)} {s : HT K V}
    (h : RunTrace hash bs evs s) (k : K) (v : V)
    (hbound : ∀ k2 ∈ k :: keysList s, hash k2 < 2 ^ W)
    (hcoll : ((k :: keysList s).filter
      (fun k2 => hash k2 == hash k)).length ≤ s.bucket_size) :
    ∃ s2, insertLoop hash (W + 1) s k v = some s2 :=
  insertLoop_progress W s k v (trace_spec h).1 hbound hcoll (by omega)

theorem wtrace0 : RunTrace hashId 2 ([] : List (Event Nat Nat)) wH0 :=
  RunTrace.init

/-- Witness for C6: inserting key 5 into the fresh table with 3-bit hashes
terminates within fuel 4. -/
theorem insert_terminates_witness :
    (∀ k2 ∈ (5 : Nat) :: keysList wH0, hashId k2 < 2 ^ 3) ∧
    (((5 : Nat) :: keysList wH0).filter
      (fun k2 => hashId k2 == hashId 5)).length ≤ wH0.bucket_size ∧
    ∃ s2, insertLoop hashId (3 + 1) wH0 5 1 = some s2 :=
  ⟨by decide, by decide,
    insert_terminates wtrace0 5 1 (by decide) (by decide)⟩

end Bustub
